import Mathlib

/-!
Verification development for the `rcdgen` RCD-file compiler (FreeRCT).

The definitions below are shallow embeddings of the C++ sources:
  - `rcdgen/src/fileio.cpp`  (FileBlock equality, FileWriter::AddBlock)
  - `rcdgen/src/ast.cpp`     (expression evaluator)
  - `rcdgen/src/nodes.cpp`   (block emission, TextNode, Strings)
  - `rcdgen/src/check_data.cpp` (resolver: named-value collection, dispatch)
  - `src/rcdgen/image.cpp`   (RLE sprite encoder)
Bytes are modelled as `Nat` (with explicit `% 256` / `% 2 ^ 16` where the C++
integer conversions truncate), byte buffers as `List Nat`, and fatal errors
(`fprintf` + `exit (1)`) as `Except` error values carrying the diagnostic data.
-/

/-- Modelled from the spec: the body of `FileBlock::SaveUInt8` is not under
`src/` (declared in `fileio.h` only); per spec section 4.6 it appends one byte.
The `uint8` parameter type in `fileio.h` truncates the argument mod 2^8. -/
def saveUInt8 (v : Nat) : List Nat := [v % 256]

/-- Modelled from the spec: the body of `FileBlock::SaveUInt16` is not under
`src/`; per spec section 4.6 it appends a little-endian 16-bit value. The
`uint16` parameter type in `fileio.h` truncates the argument mod 2^16. -/
def saveUInt16 (v : Nat) : List Nat := [v % 256, v / 256 % 256]

/-- Modelled from the spec: the body of `FileBlock::SaveUInt32` is not under
`src/`; per spec section 4.6 it appends a little-endian 32-bit value. The
`uint32` parameter type in `fileio.h` truncates the argument mod 2^32. -/
def saveUInt32 (v : Nat) : List Nat :=
  [v % 256, v / 256 % 256, v / 2 ^ 16 % 256, v / 2 ^ 24 % 256]

/-- Byte content of a 4-character ASCII block tag. -/
def tagBytes (s : String) : List Nat := s.toList.map Char.toNat

/-- Modelled from the spec: the body of `FileBlock::StartSave` is not under
`src/`; per spec section 4.6 it writes the 12-byte header: 4-byte tag,
little-endian `u32` version, little-endian `u32` payload length. -/
def startSave (tag : String) (version length : Nat) : List Nat :=
  tagBytes tag ++ saveUInt32 version ++ saveUInt32 length

/-- Little-endian decoding of the first two bytes of a buffer (the value a
reader of a `u16` field recovers). -/
def u16le (l : List Nat) : Nat := l.headD 0 + 256 * l.tail.headD 0

/-- A `FileBlock` (fileio.h), identified with its byte content: `operator==`
(fileio.cpp lines 47-52) compares the lengths and then `memcmp`s the bytes, so
two blocks are equal exactly when their byte lists are equal. -/
abbrev FileBlock := List Nat

/-- The state of a `FileWriter` (fileio.h): the list `blocks` of stored file
blocks, in insertion order. -/
abbrev FileWriter := List FileBlock

/-- `FileWriter::AddBlock` (fileio.cpp lines 70-84): walk the stored blocks
with a 1-based index; on the first byte-equal block return its index and
discard the candidate (the state is unchanged); if no stored block matches,
append the candidate and return the new 1-based index. -/
def FileWriter.AddBlock : FileWriter → FileBlock → Nat × FileWriter
  | [], blk => (1, [blk])
  | b :: bs, blk =>
    if b = blk then (1, b :: bs)
    else
      let r := FileWriter.AddBlock bs blk
      (r.1 + 1, b :: r.2)

/-- Adding a block whose content is absent appends it and returns the next
1-based index (insertion order). -/
theorem AddBlock_not_mem (bs : FileWriter) (blk : FileBlock) (h : blk ∉ bs) :
    FileWriter.AddBlock bs blk = (bs.length + 1, bs ++ [blk]) := by
  induction bs with
  | nil => rfl
  | cons b bs ih =>
    have hb : b ≠ blk := fun hbe => h (hbe ▸ List.mem_cons_self b bs)
    have hm : blk ∉ bs := fun hmem => h (List.mem_cons_of_mem b hmem)
    simp [FileWriter.AddBlock, hb, ih hm, List.length_cons]

/-- Adding a block whose content is already stored leaves the state unchanged. -/
theorem AddBlock_mem_snd (bs : FileWriter) (blk : FileBlock) (h : blk ∈ bs) :
    (FileWriter.AddBlock bs blk).2 = bs := by
  induction bs with
  | nil => cases h
  | cons b bs ih =>
    by_cases hb : b = blk
    · simp [FileWriter.AddBlock, hb]
    · have hm : blk ∈ bs := by
        rcases List.mem_cons.mp h with h1 | h2
        · exact absurd h1.symm hb
        · exact h2
      simp [FileWriter.AddBlock, hb, ih hm]

/-- The candidate is stored (or already was) after `AddBlock`. -/
theorem mem_AddBlock_snd (bs : FileWriter) (blk : FileBlock) :
    blk ∈ (FileWriter.AddBlock bs blk).2 := by
  induction bs with
  | nil => simp [FileWriter.AddBlock]
  | cons b bs ih =>
    by_cases hb : b = blk
    · simp [FileWriter.AddBlock, hb]
    · simpa [FileWriter.AddBlock, hb] using Or.inr ih

/-- `AddBlock` never removes stored blocks. -/
theorem mem_AddBlock_snd_of_mem (bs : FileWriter) (blk c : FileBlock)
    (h : c ∈ bs) : c ∈ (FileWriter.AddBlock bs blk).2 := by
  induction bs with
  | nil => cases h
  | cons b bs ih =>
    by_cases hb : b = blk
    · simpa [FileWriter.AddBlock, hb] using h
    · rcases List.mem_cons.mp h with h1 | h2
      · simp [FileWriter.AddBlock, hb, h1]
      · simpa [FileWriter.AddBlock, hb] using Or.inr (ih h2)

/-- The returned index is always at least 1 (block numbers are 1-based). -/
theorem AddBlock_fst_pos (bs : FileWriter) (blk : FileBlock) :
    1 ≤ (FileWriter.AddBlock bs blk).1 := by
  induction bs with
  | nil => simp [FileWriter.AddBlock]
  | cons b bs ih =>
    by_cases hb : b = blk
    · simp [FileWriter.AddBlock, hb]
    · simp only [FileWriter.AddBlock, if_neg hb]
      omega

/-- Scanning a list extended on the right finds a block already present in the
prefix at the same index, without changing the state. -/
theorem AddBlock_append_of_mem (bs l : FileWriter) (blk : FileBlock)
    (h : blk ∈ bs) :
    FileWriter.AddBlock (bs ++ l) blk = ((FileWriter.AddBlock bs blk).1, bs ++ l) := by
  induction bs with
  | nil => cases h
  | cons b bs ih =>
    by_cases hb : b = blk
    · simp [FileWriter.AddBlock, hb]
    · have hm : blk ∈ bs := by
        rcases List.mem_cons.mp h with h1 | h2
        · exact absurd h1.symm hb
        · exact h2
      simp [FileWriter.AddBlock, hb, ih hm]

/-- If the content is fresh, re-adding it right after appending finds it at
position `length + 1`. -/
theorem AddBlock_append_self_fst (bs : FileWriter) (blk : FileBlock)
    (h : blk ∉ bs) :
    (FileWriter.AddBlock (bs ++ [blk]) blk).1 = bs.length + 1 := by
  induction bs with
  | nil => simp [FileWriter.AddBlock]
  | cons b bs ih =>
    have hb : b ≠ blk := fun hbe => h (hbe ▸ List.mem_cons_self b bs)
    have hm : blk ∉ bs := fun hx => h (List.mem_cons_of_mem b hx)
    simp [FileWriter.AddBlock, hb, ih hm]

/-- A state reached from `bs` by further `AddBlock` calls extends `bs` on the
right. -/
theorem foldl_AddBlock_extends (cs : List FileBlock) (bs : FileWriter) :
    ∃ l, cs.foldl (fun s c => (FileWriter.AddBlock s c).2) bs = bs ++ l := by
  induction cs generalizing bs with
  | nil => exact ⟨[], by simp⟩
  | cons c cs ih =>
    rcases ih ((FileWriter.AddBlock bs c).2) with ⟨l, hl⟩
    by_cases hc : c ∈ bs
    · exact ⟨l, by simpa [AddBlock_mem_snd bs c hc] using hl⟩
    · refine ⟨[c] ++ l, ?_⟩
      rw [List.foldl_cons, hl, AddBlock_not_mem bs c hc]
      simp

/-- C1: two `FileBlock`s with identical byte content passed to
`FileWriter::AddBlock` get the same 1-based block number, even with other
`AddBlock` calls in between; the second call retains nothing (only the first
block is kept); and a block with fresh content is appended and numbered
`length + 1`, so distinct contents receive indices in insertion order
starting from 1. -/
theorem AddBlock_dedup (bs : FileWriter) (b1 b2 : FileBlock)
    (cs : List FileBlock) (hcontent : b2 = b1) :
    FileWriter.AddBlock
        (cs.foldl (fun s c => (FileWriter.AddBlock s c).2) (FileWriter.AddBlock bs b1).2) b2 =
      ((FileWriter.AddBlock bs b1).1,
       cs.foldl (fun s c => (FileWriter.AddBlock s c).2) (FileWriter.AddBlock bs b1).2) ∧
    (b1 ∉ bs → FileWriter.AddBlock bs b1 = (bs.length + 1, bs ++ [b1])) := by
  subst hcontent
  refine ⟨?_, AddBlock_not_mem bs b2⟩
  rcases foldl_AddBlock_extends cs (FileWriter.AddBlock bs b2).2 with ⟨l, hl⟩
  rw [hl]
  by_cases hmem : b2 ∈ bs
  · have hsnd := AddBlock_mem_snd bs b2 hmem
    rw [hsnd] at *
    exact AddBlock_append_of_mem bs l b2 hmem
  · have hmem2 : b2 ∈ bs ++ [b2] := by simp
    have h2 := AddBlock_append_of_mem (bs ++ [b2]) l b2 hmem2
    rw [AddBlock_not_mem bs b2 hmem]
    show FileWriter.AddBlock ((bs ++ [b2]) ++ l) b2 = (bs.length + 1, (bs ++ [b2]) ++ l)
    rw [h2, AddBlock_append_self_fst bs b2 hmem]

/-- Witness for `AddBlock_dedup` at a concrete input: writer holding one block
`[0]`, duplicate content `[1, 2]` added twice with an unrelated block `[3]`
in between. -/
theorem AddBlock_dedup_witness :
    FileWriter.AddBlock
        ([[3]].foldl (fun s c => (FileWriter.AddBlock s c).2)
          (FileWriter.AddBlock [[0]] [1, 2]).2) [1, 2] =
      ((FileWriter.AddBlock [[0]] [1, 2]).1,
       [[3]].foldl (fun s c => (FileWriter.AddBlock s c).2)
         (FileWriter.AddBlock [[0]] [1, 2]).2) ∧
    ([1, 2] ∉ [[0]] → FileWriter.AddBlock [[0]] [1, 2] = ([[0]].length + 1, [[0]] ++ [[1, 2]])) :=
  AddBlock_dedup [[0]] [1, 2] [1, 2] [[3]] rfl

/-- A `Symbol` (ast.h lines 17-21): a name with a numeric (`int`) value. A C
symbol table is a `NULL`-name-terminated array; we model it as a `List SymbolDef`
and the possibly-`NULL` `const Symbol *` argument as `Option (List SymbolDef)`. -/
structure SymbolDef where
  name : String
  value : Int

/-- Expressions (ast.h): integer literal, string literal, identifier, unary
minus; each carries a source line. (`BitSet` is declared in ast.h but its
evaluator is not implemented in ast.cpp and no claim mentions it.) -/
inductive Expr where
  | number (line : Nat) (value : Int)
  | string (line : Nat) (text : String)
  | ident (line : Nat) (name : String)
  | unary (line : Nat) (child : Expr)
deriving DecidableEq

/-- Linear scan of a symbol table (`IdentifierLiteral::Evaluate`,
ast.cpp lines 123-134: walk until the terminating `NULL` name, return the
value of the first match). -/
def lookupSymbol : List SymbolDef → String → Option Int
  | [], _ => none
  | s :: rest, nm => if s.name = nm then some s.value else lookupSymbol rest nm

/-- Fatal evaluation errors (each is `fprintf` + `exit(1)` in ast.cpp). -/
inductive EvalErr where
  | unknownIdent (line : Nat) (name : String)
  | cannotNegate (line : Nat)
deriving DecidableEq

/-- `Expression::Evaluate` (ast.cpp): a number or string literal evaluates to
a fresh copy of itself; an identifier to an integer literal with the symbol's
value (fatal `unknownIdent` when the table is `NULL` or has no match,
ast.cpp lines 123-134); unary minus evaluates the child and negates the
resulting integer literal in place, keeping that fresh literal's line (fatal
`cannotNegate` at the operator's line when the child result is not a number,
ast.cpp lines 63-73). -/
def Expr.Evaluate : Expr → Option (List SymbolDef) → Except EvalErr Expr
  | .number l v, _ => .ok (.number l v)
  | .string l t, _ => .ok (.string l t)
  | .ident l nm, syms =>
    match syms with
    | some tbl =>
      match lookupSymbol tbl nm with
      | some v => .ok (.number l v)
      | none => .error (.unknownIdent l nm)
    | none => .error (.unknownIdent l nm)
  | .unary l child, syms =>
    match Expr.Evaluate child syms with
    | .ok (.number lc v) => .ok (.number lc (-v))
    | .ok _ => .error (.cannotNegate l)
    | .error e => .error e

/-- C9: for every integer literal `x` and any symbol environment, evaluating
`-(-x)` yields an integer literal whose value is `x`. The evaluator is a pure
function of the expression (its `const` input is never mutated in the source:
the in-place negation of `UnaryOperator::Evaluate` acts on the freshly
allocated result of the child evaluation), so the result is a fresh literal
and the input tree is unchanged. -/
theorem Evaluate_double_negation (l1 l2 l3 : Nat) (x : Int)
    (syms : Option (List SymbolDef)) :
    Expr.Evaluate (.unary l1 (.unary l2 (.number l3 x))) syms =
      .ok (.number l3 x) := by
  simp [Expr.Evaluate]

/-- A `SpriteImage` (its declaring header `image.h` of the rcdgen_rebuild
branch is not under `src/`; fields are modelled from their uses in
nodes.cpp lines 116-141 and the spec's `8PXL` layout): RLE sprite data with
its geometry. `data_size` of the source is `data.length` here; the source
loops the jump table over `height` rows of `row_sizes`, which the model
identifies with the `row_sizes` list. -/
structure SpriteImage where
  width : Nat
  height : Nat
  xoffset : Nat
  yoffset : Nat
  row_sizes : List Nat
  data : List Nat
deriving DecidableEq

/-- An empty sprite (`SpriteImage::CopySprite` empty case, image.cpp
lines 359-368: all-zero geometry, no data). -/
def emptySprite : SpriteImage := ⟨0, 0, 0, 0, [], []⟩

/-- Conversion of a C++ `int` value to the bytes `SaveUInt16` stores for it
(implicit conversion to `uint16`, i.e. reduction mod 2^16). -/
def u16ofInt (v : Int) : List Nat := saveUInt16 (v % 65536).toNat

/-- The jump-table loop of `SpriteBlock::Write` (nodes.cpp lines 128-136):
a zero-size row stores entry 0, other rows store the running offset, which
then advances by the row size. -/
def spriteJump : List Nat → Nat → List Nat
  | [], _ => []
  | r :: rest, length =>
    if r = 0 then saveUInt32 0 ++ spriteJump rest length
    else saveUInt32 length ++ spriteJump rest (length + r)

/-- The `8PXL` version-2 file block built by `SpriteBlock::Write`
(nodes.cpp lines 120-139): header with payload length
`4*2 + 4*height + data_size`, the four geometry `u16`s, the jump table
starting at offset `4*height`, then the RLE bytes. -/
def spriteFileBlock (s : SpriteImage) : FileBlock :=
  startSave "8PXL" 2 (4 * 2 + 4 * s.height + s.data.length) ++
  saveUInt16 s.width ++ saveUInt16 s.height ++
  saveUInt16 s.xoffset ++ saveUInt16 s.yoffset ++
  spriteJump s.row_sizes (4 * s.height) ++ s.data

/-- `SpriteBlock::Write` (nodes.cpp lines 116-141): an empty sprite
(`data_size == 0`) makes no block and returns the "no sprite" reference 0;
otherwise the `8PXL` block is interned with `AddBlock` and its 1-based block
number returned. -/
def SpriteBlock.Write (s : SpriteImage) (fw : FileWriter) : Nat × FileWriter :=
  if s.data.length = 0 then (0, fw)
  else FileWriter.AddBlock fw (spriteFileBlock s)

/-- The sprite-reference loop shared by the game-block writers
(e.g. nodes.cpp lines 266-268): write each child sprite in order, collecting
the returned block numbers while threading the writer state. -/
def writeSprites : List SpriteImage → FileWriter → List Nat × FileWriter
  | [], fw => ([], fw)
  | s :: rest, fw =>
    let r := SpriteBlock.Write s fw
    let q := writeSprites rest r.2
    (r.1 :: q.1, q.2)

/-- The `SURF` version-3 file block built by `SURFBlock::Write`
(nodes.cpp lines 259-271): payload length `94 - 12`, three `u16` fields
(surf_type, tile_width, z_height), then one `u32` sprite reference per
surface sprite. -/
def surfFileBlock (surf_type tile_width z_height : Int) (ns : List Nat) : FileBlock :=
  startSave "SURF" 3 (94 - 12) ++ u16ofInt surf_type ++ u16ofInt tile_width ++
  u16ofInt z_height ++ (ns.map saveUInt32).flatten

/-- `SURFBlock::Write` (nodes.cpp lines 259-271): write the child sprites
first (so their block numbers are known), then intern the `SURF` block whose
payload stores those numbers as little-endian `u32` references. -/
def SURFBlock.Write (surf_type tile_width z_height : Int)
    (sprites : List SpriteImage) (fw : FileWriter) : Nat × FileWriter :=
  let r := writeSprites sprites fw
  FileWriter.AddBlock r.2 (surfFileBlock surf_type tile_width z_height r.1)

/-- Each number collected by `writeSprites` is 0 exactly for an empty sprite
and at least 1 for a non-empty one. -/
theorem writeSprites_numbers (sprites : List SpriteImage) (fw : FileWriter) :
    ∀ n ∈ (writeSprites sprites fw).1.zip sprites,
      (n.2.data.length = 0 → n.1 = 0) ∧ (n.2.data.length ≠ 0 → 1 ≤ n.1) := by
  induction sprites generalizing fw with
  | nil => intro n hn; simp [writeSprites] at hn
  | cons s rest ih =>
    intro n hn
    simp only [writeSprites, List.zip_cons_cons, List.mem_cons] at hn
    rcases hn with h1 | h2
    · subst h1
      constructor
      · intro hz; simp [SpriteBlock.Write, hz]
      · intro hnz
        simp only [SpriteBlock.Write, if_neg hnz]
        exact AddBlock_fst_pos fw (spriteFileBlock s)
    · exact ih _ _ h2

/-- C2: `SpriteBlock::Write` returns the sentinel 0 and leaves the writer
unchanged for a sprite with empty encoded data; for non-empty data it interns
an `8PXL` block and returns its writer-assigned number `n ≥ 1`; and a parent
block (`SURFBlock::Write`) encodes exactly the numbers returned for its
children as little-endian 32-bit sprite references in its own payload, which
is interned after the children. -/
theorem SpriteBlock_Write_spec (s : SpriteImage) (fw : FileWriter)
    (st tw zh : Int) (sprites : List SpriteImage) :
    (s.data.length = 0 → SpriteBlock.Write s fw = (0, fw)) ∧
    (s.data.length ≠ 0 →
      1 ≤ (SpriteBlock.Write s fw).1 ∧
      spriteFileBlock s ∈ (SpriteBlock.Write s fw).2 ∧
      (spriteFileBlock s).take 4 = tagBytes "8PXL") ∧
    (∀ n ∈ (writeSprites sprites fw).1.zip sprites,
      (n.2.data.length = 0 → n.1 = 0) ∧ (n.2.data.length ≠ 0 → 1 ≤ n.1)) ∧
    surfFileBlock st tw zh (writeSprites sprites fw).1 ∈
      (SURFBlock.Write st tw zh sprites fw).2 := by
  refine ⟨fun hz => by simp [SpriteBlock.Write, hz], fun hnz => ?_,
    writeSprites_numbers sprites fw, ?_⟩
  · refine ⟨?_, ?_, ?_⟩
    · simp only [SpriteBlock.Write, if_neg hnz]
      exact AddBlock_fst_pos fw (spriteFileBlock s)
    · simp only [SpriteBlock.Write, if_neg hnz]
      exact mem_AddBlock_snd fw (spriteFileBlock s)
    · simp [spriteFileBlock, startSave, tagBytes]
  · exact mem_AddBlock_snd (writeSprites sprites fw).2
      (surfFileBlock st tw zh (writeSprites sprites fw).1)

/-- Witness for `SpriteBlock_Write_spec`: the empty sprite and a one-pixel
sprite against an empty writer, with a SURF parent of one child. -/
theorem SpriteBlock_Write_spec_witness :
    ((emptySprite.data.length = 0 → SpriteBlock.Write emptySprite [] = (0, [])) ∧
     (emptySprite.data.length ≠ 0 →
       1 ≤ (SpriteBlock.Write emptySprite []).1 ∧
       spriteFileBlock emptySprite ∈ (SpriteBlock.Write emptySprite []).2 ∧
       (spriteFileBlock emptySprite).take 4 = tagBytes "8PXL") ∧
     (∀ n ∈ (writeSprites [⟨1, 1, 0, 0, [3], [131, 1, 7]⟩] []).1.zip
          [(⟨1, 1, 0, 0, [3], [131, 1, 7]⟩ : SpriteImage)],
       (n.2.data.length = 0 → n.1 = 0) ∧ (n.2.data.length ≠ 0 → 1 ≤ n.1)) ∧
     surfFileBlock 16 64 16 (writeSprites [⟨1, 1, 0, 0, [3], [131, 1, 7]⟩] []).1 ∈
       (SURFBlock.Write 16 64 16 [⟨1, 1, 0, 0, [3], [131, 1, 7]⟩] []).2) :=
  SpriteBlock_Write_spec emptySprite [] 16 64 16 [⟨1, 1, 0, 0, [3], [131, 1, 7]⟩]

/-- The `_surface_types` symbol table of the SURF schema
(check_data.cpp lines 640-649). -/
def surfaceTypes : List SymbolDef :=
  [⟨"reserved", 0⟩, ⟨"the_green", 16⟩, ⟨"short_grass", 17⟩, ⟨"medium_grass", 18⟩,
   ⟨"long_grass", 19⟩, ⟨"sand", 32⟩, ⟨"cursor", 48⟩]

/-- C4 counterexample: in the SURF symbol table, `the_green` resolves to 16
(not 17 — 17 is `short_grass`), so at the concrete SURF body
`surf_type: the_green; tile_width: 64; z_height: 16` (19 empty sprites, fresh
writer) the emitted SURF payload begins `10 00 40 00 10 00`, not
`11 00 40 00 10 00` as the claim states. -/
theorem SURF_the_green_counterexample :
    Expr.Evaluate (.ident 3 "the_green") (some surfaceTypes) ≠
      .ok (.number 3 17) ∧
    lookupSymbol surfaceTypes "short_grass" = some 17 ∧
    ((((SURFBlock.Write 16 64 16 (List.replicate 19 emptySprite) []).2.headD []).drop 12).take 6 ≠
      [17, 0, 64, 0, 16, 0]) := by
  have h16 : Expr.Evaluate (.ident 3 "the_green") (some surfaceTypes) =
      .ok (.number 3 16) := rfl
  refine ⟨?_, rfl, by decide⟩
  rw [h16]
  simp

/-- C4 (amended): resolving a SURF node whose body has
`surf_type: the_green, tile_width: 64, z_height: 16` produces a `surf_type`
of 16 (the symbol `the_green` resolves to 16 in the SURF symbol table), so
the emitted SURF payload begins with the little-endian `u16` bytes
`10 00 40 00 10 00`. -/
theorem SURF_the_green_payload :
    Expr.Evaluate (.ident 3 "the_green") (some surfaceTypes) =
      .ok (.number 3 16) ∧
    ((((SURFBlock.Write 16 64 16 (List.replicate 19 emptySprite) []).2.headD []).drop 12).take 6 =
      [16, 0, 64, 0, 16, 0]) := by
  exact ⟨rfl, by decide⟩

/-- The builder functions reachable from the dispatcher, one constructor per
`Convert*Node` call in check_data.cpp lines 1528-1552. -/
inductive NodeBuilder where
  | fileB | sheetB | spriteB | personGraphicsB | recolourB | frameDataB
  | stringsB | stringB | tselB | tcorB | surfB | fundB | prsgB | animB
  | anspB | pathB | platB | suppB | shopB | gborB | gchkB | gsliB | gsclB
deriving DecidableEq

/-- `ConvertNodeGroup` dispatch (check_data.cpp lines 1526-1557): successive
`strcmp`s against the known tags; a tag matching none of them falls through
to the fatal unknown-node error at the node's line (modelled as the error
value carrying the line and tag). -/
def ConvertNodeGroup (name : String) (line : Nat) : Except (Nat × String) NodeBuilder :=
  if name = "file" then .ok .fileB
  else if name = "sheet" then .ok .sheetB
  else if name = "sprite" then .ok .spriteB
  else if name = "person_graphics" then .ok .personGraphicsB
  else if name = "recolour" then .ok .recolourB
  else if name = "frame_data" then .ok .frameDataB
  else if name = "strings" then .ok .stringsB
  else if name = "string" then .ok .stringB
  else if name = "TSEL" then .ok .tselB
  else if name = "TCOR" then .ok .tcorB
  else if name = "SURF" then .ok .surfB
  else if name = "FUND" then .ok .fundB
  else if name = "PRSG" then .ok .prsgB
  else if name = "ANIM" then .ok .animB
  else if name = "ANSP" then .ok .anspB
  else if name = "PATH" then .ok .pathB
  else if name = "PLAT" then .ok .platB
  else if name = "SUPP" then .ok .suppB
  else if name = "SHOP" then .ok .shopB
  else if name = "GBOR" then .ok .gborB
  else if name = "GCHK" then .ok .gchkB
  else if name = "GSLI" then .ok .gsliB
  else if name = "GSCL" then .ok .gsclB
  else .error (line, name)

/-- The tags the dispatcher actually handles (check_data.cpp lines 1528-1552). -/
def handledTags : List String :=
  ["file", "sheet", "sprite", "person_graphics", "recolour", "frame_data",
   "strings", "string", "TSEL", "TCOR", "SURF", "FUND", "PRSG", "ANIM",
   "ANSP", "PATH", "PLAT", "SUPP", "SHOP", "GBOR", "GCHK", "GSLI", "GSCL"]

/-- C5 counterexample: the tags `BDIR` and `GSLP`, which the claim includes
in the registry, are not handled by `ConvertNodeGroup`: a node group with
either tag takes the unknown-tag fatal-error branch at the node's line
(their `BDIRBlock::Write` / `GSLPBlock::Write` emitters in nodes.cpp are
unreachable from the dispatcher). -/
theorem ConvertNodeGroup_BDIR_GSLP_fatal :
    ConvertNodeGroup "BDIR" 7 = .error (7, "BDIR") ∧
    ConvertNodeGroup "GSLP" 9 = .error (9, "GSLP") := by
  constructor <;> rfl

/-- C5 (amended): for every tag in the dispatcher's registry — which contains
the listed tags except `BDIR` and `GSLP` — the dispatch maps a node group
with that tag to a builder and does not take the unknown-tag branch; every
tag outside that list (in particular `BDIR` and `GSLP`) is a fatal error at
the node's line. -/
theorem ConvertNodeGroup_registry (tag : String) (line : Nat) :
    (tag ∈ handledTags → (ConvertNodeGroup tag line).isOk = true) ∧
    (tag ∉ handledTags → ConvertNodeGroup tag line = .error (line, tag)) := by
  constructor
  · intro htag
    fin_cases htag <;> rfl
  · intro htag
    simp only [handledTags, List.mem_cons, List.not_mem_nil, or_false, not_or] at htag
    obtain ⟨h1, h2, h3, h4, h5, h6, h7, h8, h9, h10, h11, h12, h13, h14, h15,
      h16, h17, h18, h19, h20, h21, h22, h23⟩ := htag
    simp [ConvertNodeGroup, h1, h2, h3, h4, h5, h6, h7, h8, h9, h10, h11, h12,
      h13, h14, h15, h16, h17, h18, h19, h20, h21, h22, h23]

/-- Witness for `ConvertNodeGroup_registry`: the handled tag `SURF` and the
unhandled tag `BDIR`. -/
theorem ConvertNodeGroup_registry_witness :
    (("SURF" ∈ handledTags → (ConvertNodeGroup "SURF" 4).isOk = true) ∧
     ("SURF" ∉ handledTags → ConvertNodeGroup "SURF" 4 = .error (4, "SURF"))) ∧
    (("BDIR" ∈ handledTags → (ConvertNodeGroup "BDIR" 7).isOk = true) ∧
     ("BDIR" ∉ handledTags → ConvertNodeGroup "BDIR" 7 = .error (7, "BDIR"))) :=
  ⟨ConvertNodeGroup_registry "SURF" 4, ConvertNodeGroup_registry "BDIR" 7⟩


/-- The known language codes `_languages` (nodes.cpp lines 494-498), as byte
strings; `LNG_COUNT = 3` by the assert in nodes.cpp line 508. Index 0 is the
default language with the empty code. -/
def langBytes : Fin 3 → List Nat := ![[], tagBytes "en_GB", tagBytes "nl_NL"]

/-- A `TextNode` (declared in the part of nodes.h not under `src/`; fields
modelled from their uses in nodes.cpp lines 516-577): a name plus a
per-language source line (negative = absent) and text. Byte strings are
`List Nat`. -/
structure TextNode where
  name : List Nat
  lines : Fin 3 → Int
  texts : Fin 3 → List Nat

/-- One per-language block as written by `TextNode::Write`
(nodes.cpp lines 554-575): `u16` block size, `u8` code length including the
terminator, the code bytes, a 0 byte, the text bytes, a 0 byte. The default
language (index 0, written last in the source) is the same shape with an
empty code. -/
def TextNode.langBlock (t : TextNode) (i : Fin 3) : List Nat :=
  saveUInt16 (2 + (1 + (langBytes i).length + 1) + (t.texts i).length + 1) ++
  saveUInt8 ((langBytes i).length + 1) ++ langBytes i ++ [0] ++ t.texts i ++ [0]

/-- The contribution of language `i` to `TextNode::GetSize`
(nodes.cpp lines 532-535): the per-language block size when `lines[i] >= 0`,
nothing otherwise. -/
def TextNode.langTerm (t : TextNode) (i : Fin 3) : Nat :=
  if 0 ≤ t.lines i then
    2 + (1 + (langBytes i).length + 1) + (t.texts i).length + 1
  else 0

/-- `TextNode::GetSize` (nodes.cpp lines 529-537): 2 (length field) + 1
(name length byte) + name + terminator, plus — the loop over the
`LNG_COUNT = 3` languages unrolled — the size of each defined language's
block. -/
def TextNode.GetSize (t : TextNode) : Nat :=
  2 + 1 + t.name.length + 1 + t.langTerm 0 + t.langTerm 1 + t.langTerm 2

/-- `TextNode::Write` (nodes.cpp lines 543-577): the `u16` total size (via
`SaveUInt16`, truncating mod 2^16), the name length byte (`SaveUInt8`,
asserted `< 256`), name and terminator, the defined non-default language
blocks in order, and the default-language block last. -/
def TextNode.Write (t : TextNode) : List Nat :=
  saveUInt16 t.GetSize ++
  (saveUInt8 (t.name.length + 1) ++ t.name ++ [0] ++
   (if 0 ≤ t.lines 1 then t.langBlock 1 else []) ++
   (if 0 ≤ t.lines 2 then t.langBlock 2 else []) ++
   t.langBlock 0)

/-- The sum the claim compares the outer `u16` field with: the record header
(length field, name length byte, name, terminator) plus the lengths of all
emitted per-language blocks. -/
def TextNode.recordParts (t : TextNode) : Nat :=
  (2 + 1 + t.name.length + 1) +
  (if 0 ≤ t.lines 0 then (t.langBlock 0).length else 0) +
  (if 0 ≤ t.lines 1 then (t.langBlock 1).length else 0) +
  (if 0 ≤ t.lines 2 then (t.langBlock 2).length else 0)

/-- A per-language block has exactly the length its `u16` size field states. -/
theorem langBlock_length (t : TextNode) (i : Fin 3) :
    (t.langBlock i).length =
      2 + (1 + (langBytes i).length + 1) + (t.texts i).length + 1 := by
  simp [TextNode.langBlock, saveUInt16, saveUInt8]
  ring

/-- The header-plus-blocks sum equals `GetSize`. -/
theorem recordParts_eq_GetSize (t : TextNode) :
    t.recordParts = t.GetSize := by
  unfold TextNode.recordParts TextNode.GetSize TextNode.langTerm
  by_cases h0 : 0 ≤ t.lines 0 <;> by_cases h1 : 0 ≤ t.lines 1 <;>
    by_cases h2 : 0 ≤ t.lines 2 <;>
      simp [h0, h1, h2, langBlock_length]

/-- Little-endian 16-bit round trip: the first two bytes written by
`SaveUInt16` decode to the value mod 2^16. -/
theorem u16le_saveUInt16 (v : Nat) (rest : List Nat) :
    u16le ((saveUInt16 v ++ rest).take 2) = v % 65536 := by
  simp only [saveUInt16, List.cons_append, List.take_succ_cons, List.take_zero,
    u16le, List.headD, List.tail]
  omega

/-- A large text node used to refute the unbounded claim: one defined
default-language text of 65600 bytes, total record size 65610. -/
def hugeText : TextNode :=
  { name := [97],
    lines := ![0, -1, -1],
    texts := ![List.replicate 65600 120, [], []] }

/-- The default-language text of `hugeText` is 65600 bytes long. -/
theorem hugeText_texts0_length : (hugeText.texts 0).length = 65600 := by
  rw [show hugeText.texts 0 = List.replicate 65600 120 from rfl]
  exact List.length_replicate 65600 120

/-- The record size of `hugeText` exceeds the `u16` range. -/
theorem hugeText_GetSize : hugeText.GetSize = 65610 := by
  have h0 : (0 : Int) ≤ hugeText.lines 0 := by decide
  have h1 : ¬ (0 : Int) ≤ hugeText.lines 1 := by decide
  have h2 : ¬ (0 : Int) ≤ hugeText.lines 2 := by decide
  have hn : hugeText.name.length = 1 := by decide
  have hlb : (langBytes 0).length = 0 := by decide
  rw [TextNode.GetSize, TextNode.langTerm, TextNode.langTerm, TextNode.langTerm,
    if_pos h0, if_neg h1, if_neg h2, hugeText_texts0_length, hn, hlb]

/-- C6 counterexample: for the `TextNode` `hugeText` — which carries a
default-language text and a name of less than 255 bytes — the outer `u16`
length field of `TextNode::Write` stores `65610 % 2^16 = 74`, which is not
the sum of the record header and the per-language block lengths (65610):
`SaveUInt16` truncates the `int` size to 16 bits. -/
theorem TextNode_Write_counterexample :
    0 ≤ hugeText.lines 0 ∧ hugeText.name.length + 1 < 256 ∧
    u16le (hugeText.Write.take 2) ≠ hugeText.recordParts := by
  refine ⟨by decide, by decide, ?_⟩
  rw [TextNode.Write, u16le_saveUInt16, recordParts_eq_GetSize, hugeText_GetSize]
  norm_num

/-- C6 (amended): for every `TextNode` that carries a default-language text,
whose name plus terminator is shorter than 256 bytes, and whose total record
size fits the `u16` length field (`GetSize < 2^16`), the number of bytes
written by `TextNode::Write` equals `TextNode::GetSize`, and the outer `u16`
length field equals the sum of the record header and all per-language block
lengths. -/
theorem TextNode_Write_size (t : TextNode) (h0 : 0 ≤ t.lines 0)
    (hname : t.name.length + 1 < 256) (hfit : t.GetSize < 65536) :
    t.Write.length = t.GetSize ∧
    u16le (t.Write.take 2) = t.recordParts := by
  constructor
  · rw [TextNode.Write]
    by_cases h1 : 0 ≤ t.lines 1 <;> by_cases h2 : 0 ≤ t.lines 2 <;>
      simp [TextNode.GetSize, TextNode.langTerm, h0, h1, h2, langBlock_length,
        saveUInt16, saveUInt8] <;> omega
  · rw [TextNode.Write, u16le_saveUInt16, recordParts_eq_GetSize]
    exact Nat.mod_eq_of_lt hfit

/-- Witness for `TextNode_Write_size`: the string `buy` with a default text
and an `nl_NL` translation. -/
theorem TextNode_Write_size_witness :
    (TextNode.Write ⟨[98, 117, 121], ![5, -1, 7], ![[88], [], [89, 90]]⟩).length =
      TextNode.GetSize ⟨[98, 117, 121], ![5, -1, 7], ![[88], [], [89, 90]]⟩ ∧
    u16le ((TextNode.Write ⟨[98, 117, 121], ![5, -1, 7], ![[88], [], [89, 90]]⟩).take 2) =
      TextNode.recordParts ⟨[98, 117, 121], ![5, -1, 7], ![[88], [], [89, 90]]⟩ :=
  TextNode_Write_size ⟨[98, 117, 121], ![5, -1, 7], ![[88], [], [89, 90]]⟩
    (by decide) (by decide) (by decide)

/-- The fatal string-conflict diagnostic of `ConvertStringsNode`
(check_data.cpp lines 1476-1479): cites the line of the added node's slot and
the line of the stored node's slot; the following `exit(1)` yields process
exit code 1. -/
structure ConflictErr where
  newLine : Int
  oldLine : Int
  exitCode : Nat
deriving DecidableEq

/-- One iteration of the merge loop of `ConvertStringsNode`
(check_data.cpp lines 1474-1483) at language slot `j`: if the added node
defines slot `j` and the stored node does too, fatal conflict citing both
lines; if only the added node defines it, copy its line and text into the
stored node; otherwise leave the stored node alone. -/
def mergeSlot (stored tn : TextNode) (j : Fin 3) : Except ConflictErr TextNode :=
  if 0 ≤ tn.lines j then
    if 0 ≤ stored.lines j then
      .error ⟨tn.lines j, stored.lines j, 1⟩
    else
      .ok ⟨stored.name, Function.update stored.lines j (tn.lines j),
           Function.update stored.texts j (tn.texts j)⟩
  else .ok stored

/-- The merge loop over the three language slots in order (the first
conflicting slot aborts with the fatal error). -/
def mergeText (stored tn : TextNode) : Except ConflictErr TextNode :=
  match mergeSlot stored tn 0 with
  | .error e => .error e
  | .ok s0 =>
    match mergeSlot s0 tn 1 with
    | .error e => .error e
    | .ok s1 => mergeSlot s1 tn 2

/-- Adding a `TextNode` to a `Strings` collection (check_data.cpp
lines 1472-1487): look the name up in the stored set; merge into the match in
place when found, insert otherwise. The `std::set<TextNode>` declaration is
in the part of nodes.h not under `src/`; modelled from the spec: the set is
keyed by `name` (the collection deduplicates by name), and since this claim
does not depend on the iteration order the model inserts at the end. -/
def Strings.addText : List TextNode → TextNode → Except ConflictErr (List TextNode)
  | [], tn => .ok [tn]
  | t :: ts, tn =>
    if t.name = tn.name then
      match mergeText t tn with
      | .error e => .error e
      | .ok m => .ok (m :: ts)
    else
      match Strings.addText ts tn with
      | .error e => .error e
      | .ok r => .ok (t :: r)

/-- The unnamed-value loop of `ConvertStringsNode` (check_data.cpp
lines 1464-1489): add the string nodes of the body one by one into the
collection, aborting at the first conflict. -/
def Strings.addAll : List TextNode → List TextNode → Except ConflictErr (List TextNode)
  | acc, [] => .ok acc
  | acc, tn :: rest =>
    match Strings.addText acc tn with
    | .error e => .error e
    | .ok acc2 => Strings.addAll acc2 rest

/-- `ConvertStringsNode` (check_data.cpp lines 1456-1493) restricted to its
merge loop: build the collection from the body's string nodes, starting
empty. -/
def ConvertStringsNode (tns : List TextNode) : Except ConflictErr (List TextNode) :=
  Strings.addAll [] tns

/-- No two stored text nodes share a name. -/
def uniqueNames (ts : List TextNode) : Prop :=
  ts.Pairwise (fun a b => a.name ≠ b.name)

/-- Merging one slot never changes the stored node's name. -/
theorem mergeSlot_name (stored tn : TextNode) (j : Fin 3) (m : TextNode)
    (h : mergeSlot stored tn j = .ok m) : m.name = stored.name := by
  unfold mergeSlot at h
  split at h
  · split at h
    · cases h
    · cases h; rfl
  · cases h; rfl

/-- Merging never changes the stored node's name (whole loop). -/
theorem mergeText_name (stored tn : TextNode) (m : TextNode)
    (h : mergeText stored tn = .ok m) : m.name = stored.name := by
  unfold mergeText at h
  split at h
  · cases h
  · rename_i s0 h0
    split at h
    · cases h
    · rename_i s1 h1
      calc m.name = s1.name := mergeSlot_name s1 tn 2 m h
        _ = s0.name := mergeSlot_name s0 tn 1 s1 h1
        _ = stored.name := mergeSlot_name stored tn 0 s0 h0

/-- The merged node: for every language slot the added node's line and text
when it defines the slot, the stored node's otherwise; the stored name. -/
def mergedNode (stored tn : TextNode) : TextNode :=
  ⟨stored.name,
   fun j => if 0 ≤ tn.lines j then tn.lines j else stored.lines j,
   fun j => if 0 ≤ tn.lines j then tn.texts j else stored.texts j⟩

/-- A conflict-free merge copies exactly the slots the added node defines. -/
theorem mergeText_ok (stored tn : TextNode)
    (h : ∀ j, 0 ≤ tn.lines j → ¬ 0 ≤ stored.lines j) :
    mergeText stored tn = .ok (mergedNode stored tn) := by
  obtain ⟨nm, ls, ts⟩ := stored
  unfold mergeText mergeSlot mergedNode
  by_cases c0 : 0 ≤ tn.lines 0 <;> by_cases c1 : 0 ≤ tn.lines 1 <;>
    by_cases c2 : 0 ≤ tn.lines 2 <;>
  simp only [c0, c1, c2, if_true, if_false, ite_true, ite_false, h 0, h 1, h 2,
    Function.update_apply,
    eq_false (by decide : ¬ ((1 : Fin 3) = 0)),
    eq_false (by decide : ¬ ((2 : Fin 3) = 0)),
    eq_false (by decide : ¬ ((2 : Fin 3) = 1)),
    not_false_iff, Except.ok.injEq, TextNode.mk.injEq, true_and] <;>
  refine ⟨funext fun j => ?_, funext fun j => ?_⟩ <;> fin_cases j <;>
  simp [Function.update_apply, c0, c1, c2]

/-- A slot merge errors only on a conflict, and then cites both lines with
exit code 1. -/
theorem mergeSlot_error (stored tn : TextNode) (j : Fin 3) (e : ConflictErr)
    (h : mergeSlot stored tn j = .error e) :
    e = ⟨tn.lines j, stored.lines j, 1⟩ ∧ 0 ≤ tn.lines j ∧ 0 ≤ stored.lines j := by
  unfold mergeSlot at h
  split at h
  · split at h
    · cases h
      exact ⟨rfl, by assumption, by assumption⟩
    · cases h
  · cases h

/-- A successful slot merge means that slot was not in conflict. -/
theorem mergeSlot_ok_not_conflict (stored tn : TextNode) (j : Fin 3)
    (m : TextNode) (h : mergeSlot stored tn j = .ok m) :
    ¬ (0 ≤ tn.lines j ∧ 0 ≤ stored.lines j) := by
  unfold mergeSlot at h
  split at h
  · split at h
    · cases h
    · rintro ⟨-, hc⟩
      exact absurd hc (by assumption)
  · rintro ⟨hc, -⟩
    exact absurd hc (by assumption)

/-- A slot merge leaves the other slots' lines unchanged. -/
theorem mergeSlot_lines_other (stored tn : TextNode) (j : Fin 3)
    (m : TextNode) (h : mergeSlot stored tn j = .ok m) (k : Fin 3) (hk : k ≠ j) :
    m.lines k = stored.lines k := by
  unfold mergeSlot at h
  split at h
  · split at h
    · cases h
    · cases h
      exact Function.update_noteq hk _ _
  · cases h
    rfl

/-- A conflicting slot aborts the merge with the two cited lines. -/
theorem mergeSlot_conflict (stored tn : TextNode) (j : Fin 3)
    (h1 : 0 ≤ tn.lines j) (h2 : 0 ≤ stored.lines j) :
    mergeSlot stored tn j = .error ⟨tn.lines j, stored.lines j, 1⟩ := by
  unfold mergeSlot
  rw [if_pos h1, if_pos h2]

/-- When the added and the stored node both define some language slot, the
merge loop aborts with a fatal conflict citing the added node's line and the
stored node's line for the first such slot, with exit code 1. -/
theorem mergeText_conflict (stored tn : TextNode)
    (h : ∃ j, 0 ≤ tn.lines j ∧ 0 ≤ stored.lines j) :
    ∃ j, mergeText stored tn = .error ⟨tn.lines j, stored.lines j, 1⟩ ∧
      0 ≤ tn.lines j ∧ 0 ≤ stored.lines j := by
  cases h0 : mergeSlot stored tn 0 with
  | error e =>
    obtain ⟨he, hc1, hc2⟩ := mergeSlot_error stored tn 0 e h0
    refine ⟨0, ?_, hc1, hc2⟩
    simp only [mergeText, h0, he]
  | ok s0 =>
    have hl1 : s0.lines 1 = stored.lines 1 :=
      mergeSlot_lines_other stored tn 0 s0 h0 1 (by decide)
    have hl2 : s0.lines 2 = stored.lines 2 :=
      mergeSlot_lines_other stored tn 0 s0 h0 2 (by decide)
    cases h1 : mergeSlot s0 tn 1 with
    | error e =>
      obtain ⟨he, hc1, hc2⟩ := mergeSlot_error s0 tn 1 e h1
      refine ⟨1, ?_, hc1, hl1 ▸ hc2⟩
      simp only [mergeText, h0, h1, he, hl1]
    | ok s1 =>
      have hm2 : s1.lines 2 = stored.lines 2 :=
        (mergeSlot_lines_other s0 tn 1 s1 h1 2 (by decide)).trans hl2
      cases h2 : mergeSlot s1 tn 2 with
      | error e =>
        obtain ⟨he, hc1, hc2⟩ := mergeSlot_error s1 tn 2 e h2
        refine ⟨2, ?_, hc1, hm2 ▸ hc2⟩
        simp only [mergeText, h0, h1, h2, he, hm2]
      | ok s2 =>
        exfalso
        have hnc0 := mergeSlot_ok_not_conflict stored tn 0 s0 h0
        have hnc1 := mergeSlot_ok_not_conflict s0 tn 1 s1 h1
        have hnc2 := mergeSlot_ok_not_conflict s1 tn 2 s2 h2
        rw [hl1] at hnc1
        rw [hm2] at hnc2
        rcases h with ⟨j, hj1, hj2⟩
        fin_cases j
        · exact hnc0 ⟨hj1, hj2⟩
        · exact hnc1 ⟨hj1, hj2⟩
        · exact hnc2 ⟨hj1, hj2⟩

/-- Every name in the result of `addText` comes from the old collection or
the added node. -/
theorem addText_names (ts : List TextNode) (tn : TextNode) (ts2 : List TextNode)
    (h : Strings.addText ts tn = .ok ts2) :
    ∀ x ∈ ts2, x.name = tn.name ∨ ∃ y ∈ ts, x.name = y.name := by
  induction ts generalizing ts2 with
  | nil =>
    unfold Strings.addText at h
    cases h
    intro x hx
    rw [List.mem_singleton] at hx
    subst hx
    exact Or.inl rfl
  | cons t ts ih =>
    unfold Strings.addText at h
    by_cases hn : t.name = tn.name
    · rw [if_pos hn] at h
      cases hm : mergeText t tn with
      | error e => rw [hm] at h; cases h
      | ok m =>
        rw [hm] at h
        cases h
        intro x hx
        rcases List.mem_cons.mp hx with rfl | hx2
        · exact Or.inr ⟨t, List.mem_cons_self t ts, mergeText_name t tn x hm⟩
        · exact Or.inr ⟨x, List.mem_cons_of_mem t hx2, rfl⟩
    · rw [if_neg hn] at h
      cases hr : Strings.addText ts tn with
      | error e => rw [hr] at h; cases h
      | ok r =>
        rw [hr] at h
        cases h
        intro x hx
        rcases List.mem_cons.mp hx with rfl | hx2
        · exact Or.inr ⟨x, List.mem_cons_self x ts, rfl⟩
        · rcases ih r hr x hx2 with h1 | ⟨y, hy, he⟩
          · exact Or.inl h1
          · exact Or.inr ⟨y, List.mem_cons_of_mem t hy, he⟩

/-- `addText` preserves name uniqueness: the collection keeps at most one
text node per name. -/
theorem addText_unique (ts : List TextNode) (tn : TextNode) (ts2 : List TextNode)
    (hu : uniqueNames ts) (h : Strings.addText ts tn = .ok ts2) :
    uniqueNames ts2 := by
  induction ts generalizing ts2 with
  | nil =>
    unfold Strings.addText at h
    cases h
    exact List.pairwise_singleton _ _
  | cons t ts ih =>
    rcases List.pairwise_cons.mp hu with ⟨ht, hts⟩
    unfold Strings.addText at h
    by_cases hn : t.name = tn.name
    · rw [if_pos hn] at h
      cases hm : mergeText t tn with
      | error e => rw [hm] at h; cases h
      | ok m =>
        rw [hm] at h
        cases h
        refine List.pairwise_cons.mpr ⟨?_, hts⟩
        intro b hb
        rw [mergeText_name t tn m hm]
        exact ht b hb
    · rw [if_neg hn] at h
      cases hr : Strings.addText ts tn with
      | error e => rw [hr] at h; cases h
      | ok r =>
        rw [hr] at h
        cases h
        refine List.pairwise_cons.mpr ⟨?_, ih r hts hr⟩
        intro b hb
        rcases addText_names ts tn r hr b hb with h1 | ⟨y, hy, he⟩
        · rw [h1]; exact fun hh => hn hh
        · rw [he]; exact ht y hy

/-- `addAll` starting from a name-unique collection keeps names unique. -/
theorem addAll_unique (tns : List TextNode) (acc : List TextNode)
    (hu : uniqueNames acc) (res : List TextNode)
    (h : Strings.addAll acc tns = .ok res) : uniqueNames res := by
  induction tns generalizing acc with
  | nil =>
    unfold Strings.addAll at h
    cases h
    exact hu
  | cons tn rest ih =>
    unfold Strings.addAll at h
    cases ha : Strings.addText acc tn with
    | error e => rw [ha] at h; cases h
    | ok acc2 =>
      rw [ha] at h
      exact ih acc2 (addText_unique acc tn acc2 hu ha) h

/-- Adding a node whose name is already stored (conflict-free) merges into
the stored node in place: the merged node replaces it and the collection does
not grow. -/
theorem addText_found_merge (ts : List TextNode) (tn stored : TextNode)
    (hu : uniqueNames ts) (hmem : stored ∈ ts) (hname : stored.name = tn.name)
    (hnc : ∀ j, 0 ≤ tn.lines j → ¬ 0 ≤ stored.lines j) :
    ∃ ts2, Strings.addText ts tn = .ok ts2 ∧ mergedNode stored tn ∈ ts2 ∧
      ts2.length = ts.length := by
  induction ts with
  | nil => cases hmem
  | cons t ts ih =>
    rcases List.pairwise_cons.mp hu with ⟨ht, hts⟩
    rcases List.mem_cons.mp hmem with rfl | hmem2
    · refine ⟨mergedNode stored tn :: ts, ?_, List.mem_cons_self _ _, rfl⟩
      unfold Strings.addText
      rw [if_pos hname, mergeText_ok stored tn hnc]
    · have hn : t.name ≠ tn.name := fun hh =>
        (ht stored hmem2) (hh.trans hname.symm)
      rcases ih hts hmem2 with ⟨r, hr, hmr, hlen⟩
      refine ⟨t :: r, ?_, List.mem_cons_of_mem t hmr, by simp [hlen]⟩
      unfold Strings.addText
      rw [if_neg hn, hr]

/-- Adding a node whose name is already stored with a language defined on
both sides aborts with the fatal conflict citing both lines, exit code 1. -/
theorem addText_found_conflict (ts : List TextNode) (tn stored : TextNode)
    (hu : uniqueNames ts) (hmem : stored ∈ ts) (hname : stored.name = tn.name)
    (hc : ∃ j, 0 ≤ tn.lines j ∧ 0 ≤ stored.lines j) :
    ∃ j, Strings.addText ts tn = .error ⟨tn.lines j, stored.lines j, 1⟩ ∧
      0 ≤ tn.lines j ∧ 0 ≤ stored.lines j := by
  induction ts with
  | nil => cases hmem
  | cons t ts ih =>
    rcases List.pairwise_cons.mp hu with ⟨ht, hts⟩
    rcases List.mem_cons.mp hmem with rfl | hmem2
    · rcases mergeText_conflict stored tn hc with ⟨j, hj, hj1, hj2⟩
      refine ⟨j, ?_, hj1, hj2⟩
      unfold Strings.addText
      rw [if_pos hname, hj]
    · have hn : t.name ≠ tn.name := fun hh =>
        (ht stored hmem2) (hh.trans hname.symm)
      rcases ih hts hmem2 with ⟨j, hj, hj1, hj2⟩
      refine ⟨j, ?_, hj1, hj2⟩
      unfold Strings.addText
      rw [if_neg hn, hj]

/-- C7: a `Strings` collection built from a strings node body contains at
most one `TextNode` per name; adding a `TextNode` whose name already exists
merges the language slots it defines into the existing node (the merged node
replaces it, the collection does not grow); and when both the existing and
the added node define a text for the same language, resolution is the fatal
error that cites the added node's line and the stored node's line and whose
exit code is 1. -/
theorem Strings_collection_spec (tns ts : List TextNode) (stored tn : TextNode) :
    (ConvertStringsNode tns = .ok ts → uniqueNames ts) ∧
    (uniqueNames ts → stored ∈ ts → stored.name = tn.name →
      (∀ j, 0 ≤ tn.lines j → ¬ 0 ≤ stored.lines j) →
      ∃ ts2, Strings.addText ts tn = .ok ts2 ∧ mergedNode stored tn ∈ ts2 ∧
        ts2.length = ts.length) ∧
    (uniqueNames ts → stored ∈ ts → stored.name = tn.name →
      (∃ j, 0 ≤ tn.lines j ∧ 0 ≤ stored.lines j) →
      ∃ j, Strings.addText ts tn = .error ⟨tn.lines j, stored.lines j, 1⟩ ∧
        0 ≤ tn.lines j ∧ 0 ≤ stored.lines j ∧
        (⟨tn.lines j, stored.lines j, 1⟩ : ConflictErr).exitCode = 1) := by
  refine ⟨fun h => addAll_unique tns [] (List.Pairwise.nil) ts h,
    fun hu hmem hname hnc => addText_found_merge ts tn stored hu hmem hname hnc,
    fun hu hmem hname hc => ?_⟩
  rcases addText_found_conflict ts tn stored hu hmem hname hc with ⟨j, hj, h1, h2⟩
  exact ⟨j, hj, h1, h2, rfl⟩

/-- Witness for `Strings_collection_spec`: the one-element collection built
from a single `buy` string node, then a second `buy` node conflicting on the
default language (stored line 4, added line 9). -/
theorem Strings_collection_spec_witness :
    ((ConvertStringsNode [⟨[98], ![4, -1, -1], ![[88], [], []]⟩] =
        .ok [⟨[98], ![4, -1, -1], ![[88], [], []]⟩] →
      uniqueNames [⟨[98], ![4, -1, -1], ![[88], [], []]⟩]) ∧
     (uniqueNames [⟨[98], ![4, -1, -1], ![[88], [], []]⟩] →
      (⟨[98], ![4, -1, -1], ![[88], [], []]⟩ : TextNode) ∈
        [(⟨[98], ![4, -1, -1], ![[88], [], []]⟩ : TextNode)] →
      (⟨[98], ![4, -1, -1], ![[88], [], []]⟩ : TextNode).name =
        (⟨[98], ![9, -1, -1], ![[89], [], []]⟩ : TextNode).name →
      (∀ j, 0 ≤ (⟨[98], ![9, -1, -1], ![[89], [], []]⟩ : TextNode).lines j →
        ¬ 0 ≤ (⟨[98], ![4, -1, -1], ![[88], [], []]⟩ : TextNode).lines j) →
      ∃ ts2, Strings.addText [⟨[98], ![4, -1, -1], ![[88], [], []]⟩]
          ⟨[98], ![9, -1, -1], ![[89], [], []]⟩ = .ok ts2 ∧
        mergedNode ⟨[98], ![4, -1, -1], ![[88], [], []]⟩
          ⟨[98], ![9, -1, -1], ![[89], [], []]⟩ ∈ ts2 ∧
        ts2.length = [(⟨[98], ![4, -1, -1], ![[88], [], []]⟩ : TextNode)].length) ∧
     (uniqueNames [⟨[98], ![4, -1, -1], ![[88], [], []]⟩] →
      (⟨[98], ![4, -1, -1], ![[88], [], []]⟩ : TextNode) ∈
        [(⟨[98], ![4, -1, -1], ![[88], [], []]⟩ : TextNode)] →
      (⟨[98], ![4, -1, -1], ![[88], [], []]⟩ : TextNode).name =
        (⟨[98], ![9, -1, -1], ![[89], [], []]⟩ : TextNode).name →
      (∃ j, 0 ≤ (⟨[98], ![9, -1, -1], ![[89], [], []]⟩ : TextNode).lines j ∧
        0 ≤ (⟨[98], ![4, -1, -1], ![[88], [], []]⟩ : TextNode).lines j) →
      ∃ j, Strings.addText [⟨[98], ![4, -1, -1], ![[88], [], []]⟩]
          ⟨[98], ![9, -1, -1], ![[89], [], []]⟩ =
          .error ⟨(⟨[98], ![9, -1, -1], ![[89], [], []]⟩ : TextNode).lines j,
            (⟨[98], ![4, -1, -1], ![[88], [], []]⟩ : TextNode).lines j, 1⟩ ∧
        0 ≤ (⟨[98], ![9, -1, -1], ![[89], [], []]⟩ : TextNode).lines j ∧
        0 ≤ (⟨[98], ![4, -1, -1], ![[88], [], []]⟩ : TextNode).lines j ∧
        (⟨(⟨[98], ![9, -1, -1], ![[89], [], []]⟩ : TextNode).lines j,
          (⟨[98], ![4, -1, -1], ![[88], [], []]⟩ : TextNode).lines j,
          1⟩ : ConflictErr).exitCode = 1)) :=
  Strings_collection_spec [⟨[98], ![4, -1, -1], ![[88], [], []]⟩]
    [⟨[98], ![4, -1, -1], ![[88], [], []]⟩]
    ⟨[98], ![4, -1, -1], ![[88], [], []]⟩
    ⟨[98], ![9, -1, -1], ![[89], [], []]⟩

/-- An identifier with a line number (ast.h lines 125-138). -/
structure IdentifierLine where
  line : Nat
  name : String
deriving DecidableEq

/-- `IdentifierLine::IsValid` (ast.cpp lines 259-264): non-empty and not
starting with an underscore. -/
def IdentifierLine.IsValid (il : IdentifierLine) : Bool :=
  match il.name.toList with
  | [] => false
  | c :: _ => if c = '_' then false else true

/-- A name attached to a value (ast.h): a single label or a 2-D name table. -/
inductive NameT where
  | single (line : Nat) (name : String)
  | table (rows : List (List IdentifierLine))
deriving DecidableEq

/-- `NameRow::GetLine` (ast.cpp lines 281-285): the first identifier's line,
or 0 for an empty row. -/
def rowLine : List IdentifierLine → Nat
  | [] => 0
  | il :: _ => il.line

/-- `NameTable::GetLine` (ast.cpp lines 311-318): the first row with a
positive line. -/
def tableLine : List (List IdentifierLine) → Nat
  | [] => 0
  | row :: rest => if 0 < rowLine row then rowLine row else tableLine rest

/-- `Name::GetLine`. -/
def NameT.GetLine : NameT → Nat
  | .single l _ => l
  | .table rows => tableLine rows

/-- The value side of a named value (ast.h `Group`): a node group (of which
the model keeps the line and tag, the parts `ConvertNodeGroup` dispatches on;
the group's own arguments and body are resolved inside the builders, which
are beyond this model) or an expression group. `CastToNodeGroup` /
`CastToExpressionGroup` correspond to matching on the constructor, `NULL`
results to the other constructor being present. -/
inductive GroupT where
  | node (line : Nat) (tag : String)
  | expr (e : Expr)
deriving DecidableEq

/-- The `line` field of the `Expression` base class (ast.h line 31), carried
by every constructor of the model. -/
def Expr.line : Expr → Nat
  | .number l _ => l
  | .string l _ => l
  | .ident l _ => l
  | .unary l _ => l

/-- `Group::GetLine`: a node group stores its line (ast.cpp lines 383-386);
an expression group returns the expression's line (ast.cpp lines 407-410). -/
def GroupT.GetLine : GroupT → Nat
  | .node l _ => l
  | .expr e => e.line

/-- A `NamedValue` (ast.h lines 206-214): optional name and a group. -/
structure NamedValueT where
  name : Option NameT
  group : GroupT
deriving DecidableEq

/-- What a `ValueInformation` slot holds: exactly one of `node_value` and
`expr_value` is non-`NULL` at every assignment in check_data.cpp, so the
model stores the union. The block part of the model is the builder tag
chosen by the dispatch (the block contents do not matter to these claims). -/
inductive StoredVal where
  | node (b : NodeBuilder)
  | expr (e : Expr)
deriving DecidableEq

/-- A `ValueInformation` (check_data.cpp lines 144-163): stored value, field
name, source line, used flag. -/
structure VInfo where
  value : StoredVal
  name : String
  line : Nat
  used : Bool
deriving DecidableEq

/-- The fatal errors of the named-value collector, and `nullDeref` for the
undefined behaviour of check_data.cpp line 467, where the line of an unnamed
expression value is read through the `NULL` `NodeGroup` pointer `ng`
obtained from the failed cast at line 452. -/
inductive CollectErr where
  | unnamedForbidden (line : Nat)
  | namedForbidden (line : Nat)
  | nullDeref
  | unknownTag (line : Nat) (tag : String)
  | evalFatal (e : EvalErr)
  | exprNeedsSingleName (line : Nat)
  | subNodeFatal (line : Nat)
deriving DecidableEq

/-- The inner loop of `AssignNames` (check_data.cpp lines 330-342): walk the
identifiers of one row with their column index; for each valid cell ask the
block for the sub-node and store it as a named node entry. The sub-node
provider (`BlockNode::GetSubNode` and its overrides) is passed as `getSub`. -/
def assignCols (getSub : NodeBuilder → Nat → Nat → String → Nat → Except CollectErr NodeBuilder)
    (b : NodeBuilder) (row : Nat) :
    List IdentifierLine → Nat → Except CollectErr (List VInfo)
  | [], _ => .ok []
  | il :: rest, col =>
    if il.IsValid then
      match getSub b row col il.name il.line with
      | .error e => .error e
      | .ok sub =>
        match assignCols getSub b row rest (col + 1) with
        | .error e => .error e
        | .ok vs => .ok (⟨.node sub, il.name, il.line, false⟩ :: vs)
    else assignCols getSub b row rest (col + 1)

/-- The outer loop of `AssignNames` (check_data.cpp lines 327-344): rows in
order with their row index. -/
def assignRows (getSub : NodeBuilder → Nat → Nat → String → Nat → Except CollectErr NodeBuilder)
    (b : NodeBuilder) :
    List (List IdentifierLine) → Nat → Except CollectErr (List VInfo)
  | [], _ => .ok []
  | r :: rest, row =>
    match assignCols getSub b row r 0 with
    | .error e => .error e
    | .ok vs =>
      match assignRows getSub b rest (row + 1) with
      | .error e => .error e
      | .ok ws => .ok (vs ++ ws)

/-- `Values::PrepareNamedValues` (check_data.cpp lines 420-510), the two
passes (count, then fill) fused into one pass that produces the named and
unnamed entry arrays in order. Per named value:
unnamed + forbidden is fatal; unnamed node group is converted and stored;
unnamed expression is evaluated — and then the source reads the line through
the `NULL` node-group pointer (`ng->GetLine()`, line 467), modelled as the
`nullDeref` fault; named + forbidden is fatal; a named node group is
converted and stored under a single name or splayed through `AssignNames`
for a name table; a named expression requires a single name and stores the
evaluated literal with the name's line. -/
def prepareNamedValues
    (getSub : NodeBuilder → Nat → Nat → String → Nat → Except CollectErr NodeBuilder)
    (vals : List NamedValueT) (allowNamed allowUnnamed : Bool)
    (syms : Option (List SymbolDef)) : Except CollectErr (List VInfo × List VInfo) :=
  match vals with
  | [] => .ok ([], [])
  | nv :: rest =>
    match nv.name with
    | none =>
      if allowUnnamed = false then .error (.unnamedForbidden nv.group.GetLine)
      else
        match nv.group with
        | .node l tag =>
          match ConvertNodeGroup tag l with
          | .error lt => .error (.unknownTag lt.1 lt.2)
          | .ok b =>
            match prepareNamedValues getSub rest allowNamed allowUnnamed syms with
            | .error e => .error e
            | .ok nsus => .ok (nsus.1, ⟨.node b, "???", l, false⟩ :: nsus.2)
        | .expr e =>
          match e.Evaluate syms with
          | .error er => .error (.evalFatal er)
          | .ok _ => .error .nullDeref
    | some nm =>
      if allowNamed = false then .error (.namedForbidden nv.group.GetLine)
      else
        match nv.group with
        | .node l tag =>
          match ConvertNodeGroup tag l with
          | .error lt => .error (.unknownTag lt.1 lt.2)
          | .ok b =>
            match nm with
            | .single sl sn =>
              match prepareNamedValues getSub rest allowNamed allowUnnamed syms with
              | .error e => .error e
              | .ok nsus => .ok (⟨.node b, sn, sl, false⟩ :: nsus.1, nsus.2)
            | .table rows =>
              match assignRows getSub b rows 0 with
              | .error e => .error e
              | .ok vs =>
                match prepareNamedValues getSub rest allowNamed allowUnnamed syms with
                | .error e => .error e
                | .ok nsus => .ok (vs ++ nsus.1, nsus.2)
        | .expr e =>
          match nm with
          | .table rows => .error (.exprNeedsSingleName (NameT.table rows).GetLine)
          | .single sl sn =>
            match e.Evaluate syms with
            | .error er => .error (.evalFatal er)
            | .ok v =>
              match prepareNamedValues getSub rest allowNamed allowUnnamed syms with
              | .error e => .error e
              | .ok nsus => .ok (⟨.expr v, sn, sl, false⟩ :: nsus.1, nsus.2)

/-- C8: the collector faults on every unnamed expression value. The spec says
the evaluated literal is kept in the unnamed list, but after evaluating
`5` successfully the source records the value's line via `ng->GetLine()`
through the `NULL` node-group pointer of the failed cast — a null-pointer
virtual call — instead of using the expression group. -/
theorem PrepareNamedValues_unnamed_expr_faults :
    prepareNamedValues (fun b _ _ _ _ => .ok b)
        [⟨none, .expr (.number 7 5)⟩] true true none = .error .nullDeref ∧
    Expr.Evaluate (.number 7 5) none = .ok (.number 7 5) :=
  ⟨rfl, rfl⟩

/-- Whether an expression is a fully evaluated literal (a number or string
literal; not an identifier or unary expression). -/
def Expr.isLiteral : Expr → Bool
  | .number _ _ => true
  | .string _ _ => true
  | .ident _ _ => false
  | .unary _ _ => false

/-- `Expression::Evaluate` only ever returns literals. -/
theorem Evaluate_isLiteral (e : Expr) (syms : Option (List SymbolDef)) (r : Expr)
    (h : e.Evaluate syms = .ok r) : r.isLiteral = true := by
  induction e generalizing r with
  | number l v => cases h; rfl
  | string l t => cases h; rfl
  | ident l nm =>
    unfold Expr.Evaluate at h
    split at h
    · split at h
      · cases h; rfl
      · cases h
    · cases h
  | unary l c ih =>
    unfold Expr.Evaluate at h
    split at h
    · cases h; rfl
    · cases h
    · cases h

/-- The stored-value discipline claimed for the collector: an entry is a
resolved block node or a fully evaluated literal expression. -/
def storedLiteral (vi : VInfo) : Prop :=
  ∀ e, vi.value = .expr e → e.isLiteral = true

/-- All entries produced by the name-table splay are node entries. -/
theorem assignCols_literal (getSub : NodeBuilder → Nat → Nat → String → Nat → Except CollectErr NodeBuilder)
    (b : NodeBuilder) (row : Nat) (cols : List IdentifierLine) (col : Nat)
    (vs : List VInfo) (h : assignCols getSub b row cols col = .ok vs) :
    ∀ vi ∈ vs, storedLiteral vi := by
  induction cols generalizing col vs with
  | nil =>
    unfold assignCols at h
    cases h
    intro vi hvi
    cases hvi
  | cons il rest ih =>
    unfold assignCols at h
    split at h
    · split at h
      · cases h
      · split at h
        · cases h
        · rename_i sub hsub ws hws
          cases h
          intro vi hvi
          rcases List.mem_cons.mp hvi with rfl | h2
          · intro e he; cases he
          · exact ih (col + 1) ws hws vi h2
    · exact ih (col + 1) vs h

/-- All entries produced by `AssignNames` are node entries. -/
theorem assignRows_literal (getSub : NodeBuilder → Nat → Nat → String → Nat → Except CollectErr NodeBuilder)
    (b : NodeBuilder) (rows : List (List IdentifierLine)) (row : Nat)
    (vs : List VInfo) (h : assignRows getSub b rows row = .ok vs) :
    ∀ vi ∈ vs, storedLiteral vi := by
  induction rows generalizing row vs with
  | nil =>
    unfold assignRows at h
    cases h
    intro vi hvi
    cases hvi
  | cons r rest ih =>
    unfold assignRows at h
    split at h
    · cases h
    · rename_i cs hcs
      split at h
      · cases h
      · rename_i ws hws
        cases h
        intro vi hvi
        rcases List.mem_append.mp hvi with h1 | h2
        · exact assignCols_literal getSub b row r 0 cs hcs vi h1
        · exact ih (row + 1) ws hws vi h2

/-- Every entry stored by a successful `PrepareNamedValues` run is a block
node or an evaluated literal. -/
theorem prepareNamedValues_literal
    (getSub : NodeBuilder → Nat → Nat → String → Nat → Except CollectErr NodeBuilder)
    (vals : List NamedValueT) (aN aU : Bool) (syms : Option (List SymbolDef))
    (nvs uvs : List VInfo)
    (h : prepareNamedValues getSub vals aN aU syms = .ok (nvs, uvs)) :
    ∀ vi ∈ nvs ++ uvs, storedLiteral vi := by
  induction vals generalizing nvs uvs with
  | nil =>
    unfold prepareNamedValues at h
    cases h
    intro vi hvi
    cases hvi
  | cons nv rest ih =>
    unfold prepareNamedValues at h
    split at h
    · -- unnamed value
      split at h
      · cases h
      · split at h
        · -- unnamed node group
          split at h
          · cases h
          · rename_i b hb
            split at h
            · cases h
            · rename_i nsus hp
              cases h
              intro vi hvi
              rcases List.mem_append.mp hvi with h1 | h2
              · exact ih nsus.1 nsus.2 (by rw [hp]) vi (List.mem_append.mpr (Or.inl h1))
              · rcases List.mem_cons.mp h2 with rfl | h3
                · intro e he; cases he
                · exact ih nsus.1 nsus.2 (by rw [hp]) vi (List.mem_append.mpr (Or.inr h3))
        · -- unnamed expression: always faults
          split at h
          · cases h
          · cases h
    · -- named value
      split at h
      · cases h
      · split at h
        · -- named node group
          split at h
          · cases h
          · rename_i b hb
            split at h
            · -- single name
              split at h
              · cases h
              · rename_i nsus hp
                cases h
                intro vi hvi
                rcases List.mem_append.mp hvi with h1 | h2
                · rcases List.mem_cons.mp h1 with rfl | h3
                  · intro e he; cases he
                  · exact ih nsus.1 nsus.2 (by rw [hp]) vi (List.mem_append.mpr (Or.inl h3))
                · exact ih nsus.1 nsus.2 (by rw [hp]) vi (List.mem_append.mpr (Or.inr h2))
            · -- name table
              split at h
              · cases h
              · rename_i vs har
                split at h
                · cases h
                · rename_i nsus hp
                  cases h
                  intro vi hvi
                  rcases List.mem_append.mp hvi with h1 | h2
                  · rcases List.mem_append.mp h1 with h3 | h4
                    · exact assignRows_literal getSub b _ 0 vs har vi h3
                    · exact ih nsus.1 nsus.2 (by rw [hp]) vi (List.mem_append.mpr (Or.inl h4))
                  · exact ih nsus.1 nsus.2 (by rw [hp]) vi (List.mem_append.mpr (Or.inr h2))
        · -- named expression
          split at h
          · cases h
          · split at h
            · cases h
            · rename_i v hv
              split at h
              · cases h
              · rename_i nsus hp
                cases h
                intro vi hvi
                rcases List.mem_append.mp hvi with h1 | h2
                · rcases List.mem_cons.mp h1 with rfl | h3
                  · intro e2 he2
                    cases he2
                    exact Evaluate_isLiteral _ syms _ hv
                  · exact ih nsus.1 nsus.2 (by rw [hp]) vi (List.mem_append.mpr (Or.inl h3))
                · exact ih nsus.1 nsus.2 (by rw [hp]) vi (List.mem_append.mpr (Or.inr h2))

/-- Field-extraction errors (check_data.cpp lines 240-316, 517-528): type
mismatches and the missing-field error; `evalFatal` wraps a fatal error
raised inside `Expression::Evaluate` during extraction. -/
inductive FieldErr where
  | notNumber (line : Nat) (fld : String) (node : String)
  | notString (line : Nat) (fld : String) (node : String)
  | notFound (line : Nat) (fld : String) (node : String)
  | evalFatal (e : EvalErr)
deriving DecidableEq

/-- `ValueInformation::GetNumber` (check_data.cpp lines 240-257): a missing
expression (`expr_value == NULL`, i.e. a node value) is the not-a-number
error; a number literal returns its value; anything else is evaluated with
the supplied symbols and must reduce to a number literal. -/
def VInfo.GetNumber (vi : VInfo) (line : Nat) (node : String)
    (syms : Option (List SymbolDef)) : Except FieldErr Int :=
  match vi.value with
  | .node _ => .error (.notNumber line vi.name node)
  | .expr e =>
    match e with
    | .number _ v => .ok v
    | _ =>
      match e.Evaluate syms with
      | .ok (.number _ v) => .ok v
      | .ok _ => .error (.notNumber line vi.name node)
      | .error er => .error (.evalFatal er)

/-- `ValueInformation::GetString` (check_data.cpp lines 265-282): same shape
with string literals, always evaluating with `NULL` symbols. -/
def VInfo.GetString (vi : VInfo) (line : Nat) (node : String) :
    Except FieldErr String :=
  match vi.value with
  | .node _ => .error (.notString line vi.name node)
  | .expr e =>
    match e with
    | .string _ t => .ok t
    | _ =>
      match e.Evaluate none with
      | .ok (.string _ t) => .ok t
      | .ok _ => .error (.notString line vi.name node)
      | .error er => .error (.evalFatal er)

/-- `Values::FindValue` (check_data.cpp lines 517-528): the first unused
entry with the field's name (the model returns it without the used-marking
side effect, which does not affect the returned entry). -/
def Values.FindValue : List VInfo → String → Option VInfo
  | [], _ => none
  | vi :: rest, fld =>
    if vi.used = false ∧ vi.name = fld then some vi else Values.FindValue rest fld

/-- `Values::GetNumber` (check_data.cpp lines 536-539): find the field and
extract the number. The `symbols` parameter of `Values::GetNumber` is NOT
passed on — the source calls `GetNumber(this->node_line, this->node_name)`
with the defaulted `NULL` symbol table. -/
def Values.GetNumber (nvs : List VInfo) (node_line : Nat) (node_name fld : String)
    (syms : Option (List SymbolDef)) : Except FieldErr Int :=
  match Values.FindValue nvs fld with
  | none => .error (.notFound node_line fld node_name)
  | some vi => vi.GetNumber node_line node_name none

/-- C10: after `Values::PrepareNamedValues` succeeds, every stored named or
unnamed value holds a resolved block node or a fully evaluated literal
(number or string), never an unevaluated identifier or unary expression;
`Values::GetNumber` discards its symbols argument, so later field extraction
is independent of any symbol environment; and extraction of a stored value
can only fail with a field-type error, never with the unknown-identifier
fatal (which can therefore only arise during body preparation). -/
theorem PrepareNamedValues_stored_literals
    (getSub : NodeBuilder → Nat → Nat → String → Nat → Except CollectErr NodeBuilder)
    (vals : List NamedValueT) (aN aU : Bool) (syms : Option (List SymbolDef))
    (nvs uvs : List VInfo) (l : Nat) (nn fld : String)
    (s1 s2 : Option (List SymbolDef)) (vi : VInfo) :
    (prepareNamedValues getSub vals aN aU syms = .ok (nvs, uvs) →
      ∀ vi2 ∈ nvs ++ uvs,
        (∃ b, vi2.value = .node b) ∨
        (∃ e, vi2.value = .expr e ∧ e.isLiteral = true)) ∧
    (Values.GetNumber nvs l nn fld s1 = Values.GetNumber nvs l nn fld s2) ∧
    (storedLiteral vi →
      (∀ er, vi.GetNumber l nn s1 ≠ .error (.evalFatal er)) ∧
      (∀ er, vi.GetString l nn ≠ .error (.evalFatal er))) := by
  refine ⟨fun h vi2 hvi2 => ?_, rfl, fun hlit => ⟨fun er => ?_, fun er => ?_⟩⟩
  · have hs := prepareNamedValues_literal getSub vals aN aU syms nvs uvs h vi2 hvi2
    cases hv : vi2.value with
    | node b => exact Or.inl ⟨b, rfl⟩
    | expr e => exact Or.inr ⟨e, rfl, hs e hv⟩
  · unfold VInfo.GetNumber
    cases hv : vi.value with
    | node b => simp
    | expr e =>
      have he := hlit e hv
      cases e with
      | number l2 v => simp
      | string l2 t => simp [Expr.Evaluate]
      | ident l2 nm => cases he
      | unary l2 c => cases he
  · unfold VInfo.GetString
    cases hv : vi.value with
    | node b => simp
    | expr e =>
      have he := hlit e hv
      cases e with
      | number l2 v => simp [Expr.Evaluate]
      | string l2 t => simp
      | ident l2 nm => cases he
      | unary l2 c => cases he

/-- Witness for `PrepareNamedValues_stored_literals`: a body with one named
expression `wood` (resolved through the FUND symbol table to 32) and one
unnamed `recolour` node group, prepared successfully. -/
theorem PrepareNamedValues_stored_literals_witness :
    (prepareNamedValues (fun b _ _ _ _ => .ok b)
        [⟨some (.single 4 "found_type"), .expr (.ident 4 "wood")⟩,
         ⟨none, .node 5 "recolour"⟩] true true
        (some [⟨"reserved", 0⟩, ⟨"ground", 16⟩, ⟨"wood", 32⟩, ⟨"brick", 48⟩]) =
        .ok ([⟨.expr (.number 4 32), "found_type", 4, false⟩],
             [⟨.node .recolourB, "???", 5, false⟩]) →
      ∀ vi2 ∈ ([⟨.expr (.number 4 32), "found_type", 4, false⟩] : List VInfo) ++
          [⟨.node .recolourB, "???", 5, false⟩],
        (∃ b, vi2.value = .node b) ∨
        (∃ e, vi2.value = .expr e ∧ e.isLiteral = true)) ∧
    (Values.GetNumber [⟨.expr (.number 4 32), "found_type", 4, false⟩] 3 "FUND"
        "found_type" (some [⟨"wood", 32⟩]) =
      Values.GetNumber [⟨.expr (.number 4 32), "found_type", 4, false⟩] 3 "FUND"
        "found_type" none) ∧
    (storedLiteral ⟨.expr (.number 4 32), "found_type", 4, false⟩ →
      (∀ er, VInfo.GetNumber ⟨.expr (.number 4 32), "found_type", 4, false⟩ 3 "FUND"
          (some [⟨"wood", 32⟩]) ≠ .error (.evalFatal er)) ∧
      (∀ er, VInfo.GetString ⟨.expr (.number 4 32), "found_type", 4, false⟩ 3 "FUND" ≠
          .error (.evalFatal er))) :=
  PrepareNamedValues_stored_literals (fun b _ _ _ _ => .ok b)
    [⟨some (.single 4 "found_type"), .expr (.ident 4 "wood")⟩,
     ⟨none, .node 5 "recolour"⟩] true true
    (some [⟨"reserved", 0⟩, ⟨"ground", 16⟩, ⟨"wood", 32⟩, ⟨"brick", 48⟩])
    [⟨.expr (.number 4 32), "found_type", 4, false⟩]
    [⟨.node .recolourB, "???", 5, false⟩] 3 "FUND" "found_type"
    (some [⟨"wood", 32⟩]) none ⟨.expr (.number 4 32), "found_type", 4, false⟩

/-- One RLE run as emitted by `Image::Encode` (image.cpp lines 448-488): a
gap byte (transparent pixels to skip) and the opaque palette indices that
follow. The source stores a run as gap byte, count byte, then the pixels;
the count is the number of pixels. -/
structure Run where
  gap : Nat
  pix : List Nat
deriving DecidableEq

/-- The gap-splitting loop `while (last_stored + 127 < start)`
(image.cpp lines 463-467): emit `(127, 0)` runs until the remaining gap is
at most 127; returns the emitted runs and the remaining gap. -/
def gapSplit (g : Nat) : List Run × Nat :=
  if 127 < g then (⟨127, []⟩ :: (gapSplit (g - 127)).1, (gapSplit (g - 127)).2)
  else ([], g)
termination_by g
decreasing_by omega

/-- The run-splitting loop `while (x - start > 255)` (image.cpp
lines 468-476) followed by the final run (lines 477-483): chunks of 255
opaque pixels (the first carrying the pending gap, later ones gap 0), then
the remaining at-most-255 pixels. -/
def runSplit (g : Nat) (pix : List Nat) : List Run :=
  if 255 < pix.length then
    ⟨g, pix.take 255⟩ :: runSplit 0 (pix.drop 255)
  else [⟨g, pix⟩]
termination_by pix.length
decreasing_by simp [List.length_drop]; omega

/-- The per-row scan of `Image::Encode` (image.cpp lines 453-485): walk the
row accumulating the transparent gap (`IsTransparent` = palette index 0,
image.cpp lines 285-288 with `TRANSPARENT_INDEX = 0`); at an opaque pixel
take the maximal opaque stretch, emit the gap runs, the split runs and the
final run, and continue after the stretch with a fresh gap. -/
def rowRuns : List Nat → Nat → List Run
  | [], _ => []
  | p :: rest, g =>
    if p = 0 then rowRuns rest (g + 1)
    else
      (gapSplit g).1 ++
        runSplit (gapSplit g).2 (p :: rest.takeWhile (fun q => q ≠ 0)) ++
        rowRuns (rest.dropWhile (fun q => q ≠ 0)) 0
termination_by l _ => l.length
decreasing_by
  · simp
  · simp
    exact Nat.lt_succ_of_le (List.dropWhile_sublist _).length_le

/-- Serialization of one run: gap byte (with the high bit set on the last
run of the row, `*last_header |= 128`, image.cpp line 487), count byte,
pixel bytes. -/
def runBytes (last : Bool) (r : Run) : List Nat :=
  (cond last (r.gap + 128) r.gap) :: r.pix.length :: r.pix

/-- Serialization of a row's runs; the last run of the row gets the
end-of-row mark. -/
def rowBytes : List Run → List Nat
  | [] => []
  | [r] => runBytes true r
  | r :: rs => runBytes false r ++ rowBytes rs

/-- The RLE bytes of one row of the sprite region. -/
def encodeRow (row : List Nat) : List Nat := rowBytes (rowRuns row 0)

/-- The byte length of a row's RLE data. The first pass of `Image::Encode`
(image.cpp lines 396-424) computes exactly this number (the source asserts
the two passes agree, image.cpp line 489). -/
def rowSize (row : List Nat) : Nat := (encodeRow row).length

/-- The jump-table loop of `Image::Encode` (image.cpp lines 438-445): entry
0 for a zero-size row, otherwise the running byte offset (a `uint32`,
wrapping mod 2^32), which then advances by the row size. -/
def jumpValues : List Nat → Nat → List Nat
  | [], _ => []
  | s :: rest, offset =>
    (if s = 0 then 0 else offset) :: jumpValues rest ((offset + s) % 2 ^ 32)

/-- `Image::Encode` on a region given as its rows of palette indices
(`GetPixel` values, 0 = transparent): `nullptr`/size-0 when no row has
pixels (image.cpp lines 425-428), otherwise the jump table (4 bytes per row,
offsets starting at `4 * height`) followed by the rows' RLE bytes. -/
def Image.Encode (region : List (List Nat)) : List Nat :=
  if (region.map rowSize).sum = 0 then []
  else
    ((jumpValues (region.map rowSize) ((4 * region.length) % 2 ^ 32)).map saveUInt32).flatten ++
    (region.map encodeRow).flatten

/-- The logical decoding of one row's RLE bytes, as the spec describes it:
a gap byte `g` whose low 7 bits skip that many transparent pixels and whose
high bit marks the end of the row, a count byte `n` emitting the next `n`
bytes as opaque palette indices, repeated until the end-of-row mark. -/
def decodeRow : List Nat → List Nat
  | g :: n :: rest =>
    List.replicate (g % 128) 0 ++ rest.take n ++
      (if 128 ≤ g then [] else decodeRow (rest.drop n))
  | _ => []
termination_by l => l.length
decreasing_by simp [List.length_drop]; omega

/-- Decoding a full row of width `w`: the decoded runs, then transparent
padding up to the row width (pixels after the last run are transparent). -/
def decodeRowFull (w : Nat) (bytes : List Nat) : List Nat :=
  decodeRow bytes ++ List.replicate (w - (decodeRow bytes).length) 0

/-- The pixels a list of runs stands for: per run, the gap's transparent
pixels then the opaque pixels. -/
def runsPix (rs : List Run) : List Nat :=
  (rs.map fun r => List.replicate r.gap 0 ++ r.pix).flatten

/-- The gap remaining after the 127-splitting loop is at most 127. -/
theorem gapSplit_snd_le (g : Nat) : (gapSplit g).2 ≤ 127 := by
  induction g using Nat.strong_induction_on with
  | _ g ih =>
    rw [gapSplit]
    by_cases hg : 127 < g
    · simpa [if_pos hg] using ih (g - 127) (by omega)
    · simp [if_neg hg]
      omega

/-- The emitted gap chunks are pure `(127, 0)` runs. -/
theorem gapSplit_runs (g : Nat) :
    ∀ r ∈ (gapSplit g).1, r.gap = 127 ∧ r.pix = [] := by
  induction g using Nat.strong_induction_on with
  | _ g ih =>
    rw [gapSplit]
    by_cases hg : 127 < g
    · simp only [if_pos hg]
      intro r hr
      rcases List.mem_cons.mp hr with rfl | h2
      · exact ⟨rfl, rfl⟩
      · exact ih (g - 127) (by omega) r h2
    · simp [if_neg hg]

/-- The gap chunks and the remaining gap together cover the whole gap. -/
theorem gapSplit_pix (g : Nat) :
    runsPix (gapSplit g).1 ++ List.replicate (gapSplit g).2 0 =
      List.replicate g 0 := by
  induction g using Nat.strong_induction_on with
  | _ g ih =>
    rw [gapSplit]
    by_cases hg : 127 < g
    · simp only [if_pos hg, runsPix, List.map_cons, List.flatten_cons,
        List.append_nil]
      rw [List.append_assoc]
      have := ih (g - 127) (by omega)
      simp only [runsPix] at this
      rw [this, ← List.replicate_add]
      have h127 : 127 + (g - 127) = g := by omega
      rw [h127]
    · simp [if_neg hg, runsPix]

/-- The run splitter never returns an empty run list. -/
theorem runSplit_ne_nil (g : Nat) (pix : List Nat) : runSplit g pix ≠ [] := by
  rw [runSplit]
  by_cases hl : 255 < pix.length
  · simp [if_pos hl]
  · simp [if_neg hl]

/-- The split runs stand for the gap followed by the opaque pixels. -/
theorem runSplit_pix (g : Nat) (pix : List Nat) :
    runsPix (runSplit g pix) = List.replicate g 0 ++ pix := by
  suffices H : ∀ n g (pix : List Nat), pix.length ≤ n →
      runsPix (runSplit g pix) = List.replicate g 0 ++ pix from
    H pix.length g pix le_rfl
  intro n
  induction n with
  | zero =>
    intro g pix hp
    rw [runSplit]
    have hl : ¬ 255 < pix.length := by omega
    simp [if_neg hl, runsPix]
  | succ n ih =>
    intro g pix hp
    rw [runSplit]
    by_cases hl : 255 < pix.length
    · simp only [if_pos hl, runsPix, List.map_cons, List.flatten_cons]
      have hd : (pix.drop 255).length ≤ n := by simp [List.length_drop]; omega
      have := ih 0 (pix.drop 255) hd
      simp only [runsPix] at this
      rw [this]
      simp [List.take_append_drop]
    · simp [if_neg hl, runsPix]

/-- All split runs keep gaps within 7 bits when the incoming gap does. -/
theorem runSplit_gaps (g : Nat) (pix : List Nat) (hg : g ≤ 127) :
    ∀ r ∈ runSplit g pix, r.gap ≤ 127 := by
  suffices H : ∀ n g (pix : List Nat), g ≤ 127 → pix.length ≤ n →
      ∀ r ∈ runSplit g pix, r.gap ≤ 127 from H pix.length g pix hg le_rfl
  intro n
  induction n with
  | zero =>
    intro g pix hg2 hp
    rw [runSplit]
    have hl : ¬ 255 < pix.length := by omega
    simp only [if_neg hl]
    intro r hr
    rcases List.mem_singleton.mp hr with rfl
    exact hg2
  | succ n ih =>
    intro g pix hg2 hp
    rw [runSplit]
    by_cases hl : 255 < pix.length
    · simp only [if_pos hl]
      intro r hr
      rcases List.mem_cons.mp hr with rfl | h2
      · exact hg2
      · exact ih 0 (pix.drop 255) (by omega)
          (by simp [List.length_drop]; omega) r h2
    · simp only [if_neg hl]
      intro r hr
      rcases List.mem_singleton.mp hr with rfl
      exact hg2

/-- All split runs carry at most 255 pixels. -/
theorem runSplit_counts (g : Nat) (pix : List Nat) :
    ∀ r ∈ runSplit g pix, r.pix.length ≤ 255 := by
  suffices H : ∀ n g (pix : List Nat), pix.length ≤ n →
      ∀ r ∈ runSplit g pix, r.pix.length ≤ 255 from H pix.length g pix le_rfl
  intro n
  induction n with
  | zero =>
    intro g pix hp
    rw [runSplit]
    have hl : ¬ 255 < pix.length := by omega
    simp only [if_neg hl]
    intro r hr
    rcases List.mem_singleton.mp hr with rfl
    show pix.length ≤ 255
    omega
  | succ n ih =>
    intro g pix hp
    rw [runSplit]
    by_cases hl : 255 < pix.length
    · simp only [if_pos hl]
      intro r hr
      rcases List.mem_cons.mp hr with rfl | h2
      · simp
      · exact ih 0 (pix.drop 255) (by simp [List.length_drop]; omega) r h2
    · simp only [if_neg hl]
      intro r hr
      rcases List.mem_singleton.mp hr with rfl
      show pix.length ≤ 255
      omega
  
/-- Split runs only carry pixels of the input stretch. -/
theorem runSplit_mem (g : Nat) (pix : List Nat) :
    ∀ r ∈ runSplit g pix, ∀ p ∈ r.pix, p ∈ pix := by
  suffices H : ∀ n g (pix : List Nat), pix.length ≤ n →
      ∀ r ∈ runSplit g pix, ∀ p ∈ r.pix, p ∈ pix from H pix.length g pix le_rfl
  intro n
  induction n with
  | zero =>
    intro g pix hp
    rw [runSplit]
    have hl : ¬ 255 < pix.length := by omega
    simp only [if_neg hl]
    intro r hr p hpp
    rcases List.mem_singleton.mp hr with rfl
    exact hpp
  | succ n ih =>
    intro g pix hp
    rw [runSplit]
    by_cases hl : 255 < pix.length
    · simp only [if_pos hl]
      intro r hr p hpp
      rcases List.mem_cons.mp hr with rfl | h2
      · exact (List.take_sublist 255 pix).subset hpp
      · exact (List.drop_sublist 255 pix).subset
          (ih 0 (pix.drop 255) (by simp [List.length_drop]; omega) r h2 p hpp)
    · simp only [if_neg hl]
      intro r hr p hpp
      rcases List.mem_singleton.mp hr with rfl
      exact hpp

/-- A row with its trailing transparent pixels removed (the encoder never
emits runs past the last opaque pixel of a row). -/
def trimTrail (l : List Nat) : List Nat :=
  (l.reverse.dropWhile (fun q => q = 0)).reverse

/-- An all-transparent row trims to nothing. -/
theorem trimTrail_replicate (g : Nat) :
    trimTrail (List.replicate g 0) = [] := by
  unfold trimTrail
  rw [List.reverse_replicate]
  have : (List.replicate g (0 : Nat)).dropWhile (fun q => q = 0) = [] := by
    rw [List.dropWhile_eq_nil_iff]
    intro x hx
    simp [List.eq_of_mem_replicate hx]
  rw [this, List.reverse_nil]

/-- `runsPix` distributes over run-list concatenation. -/
theorem runsPix_append (a b : List Run) :
    runsPix (a ++ b) = runsPix a ++ runsPix b := by
  simp [runsPix]

/-- Trimming a row that continues with `v` after a gap and an opaque stretch
keeps everything up to the stretch and trims only inside `v`. -/
theorem trimTrail_group (g p : Nat) (hp : p ≠ 0) (t v : List Nat)
    (ht : ∀ q ∈ t, q ≠ 0) :
    trimTrail (List.replicate g 0 ++ p :: t ++ v) =
      List.replicate g 0 ++ p :: t ++ trimTrail v := by
  have hB : (p :: t).reverse.dropWhile (fun q => q = 0) = (p :: t).reverse := by
    cases hrev : (p :: t).reverse with
    | nil =>
      have h0 : (p :: t).reverse.length = 0 := by rw [hrev]; rfl
      simp at h0
    | cons a as =>
      have h1 : a ∈ (p :: t).reverse := by
        rw [hrev]; exact List.mem_cons_self a as
      rw [List.mem_reverse] at h1
      have ha0 : ¬ (a = 0) := by
        rcases List.mem_cons.mp h1 with rfl | h2
        · exact hp
        · exact ht a h2
      simp [List.dropWhile_cons, ha0]
  have hclaim : (v.reverse ++ (p :: t).reverse).dropWhile (fun q => q = 0) =
      v.reverse.dropWhile (fun q => q = 0) ++ (p :: t).reverse := by
    rw [List.dropWhile_append]
    by_cases he : v.reverse.dropWhile (fun q => q = 0) = []
    · rw [if_pos (by simp [he]), hB, he]
      simp
    · rw [if_neg (by simp [he])]
  have hne : (v.reverse ++ (p :: t).reverse).dropWhile (fun q => q = 0) ≠ [] := by
    rw [hclaim]
    intro hcontr
    have hlen := congrArg List.length hcontr
    rw [List.length_append, List.length_reverse] at hlen
    simp at hlen
  unfold trimTrail
  have hL : (List.replicate g 0 ++ p :: t ++ v).reverse =
      (v.reverse ++ (p :: t).reverse) ++ (List.replicate g 0).reverse := by
    simp
  have hcond : ¬ ((v.reverse ++ (p :: t).reverse).dropWhile
      (fun q => q = 0)).isEmpty = true := by
    cases hds : (v.reverse ++ (p :: t).reverse).dropWhile (fun q => q = 0) with
    | nil => exact absurd hds hne
    | cons a as => simp
  rw [hL, List.dropWhile_append, if_neg hcond, hclaim]
  simp [List.reverse_replicate]

/-- Restoring the trimmed trailing transparency with padding recovers the
row. -/
theorem trimTrail_pad (l : List Nat) :
    trimTrail l ++ List.replicate (l.length - (trimTrail l).length) 0 = l := by
  unfold trimTrail
  have hsplit := List.takeWhile_append_dropWhile (p := fun q : Nat => q = 0)
    (l := l.reverse)
  have hz : l.reverse.takeWhile (fun q => q = 0) =
      List.replicate (l.reverse.takeWhile (fun q => q = 0)).length 0 := by
    refine List.eq_replicate_of_mem ?_
    intro b hb
    simpa using List.mem_takeWhile_imp hb
  have h1 := congrArg List.length hsplit
  rw [List.length_append, List.length_reverse] at h1
  have hcount : l.length -
      ((l.reverse.dropWhile (fun q => q = 0)).reverse).length =
      (l.reverse.takeWhile (fun q => q = 0)).length := by
    rw [List.length_reverse]
    omega
  rw [hcount]
  conv_rhs => rw [← List.reverse_reverse l, ← hsplit]
  rw [List.reverse_append]
  congr 1
  conv_rhs => rw [hz]
  rw [List.reverse_replicate]

/-- The pixels the encoded runs of a row stand for are the row with its
pending gap, minus trailing transparency. -/
theorem rowRuns_pix (row : List Nat) (g : Nat) :
    runsPix (rowRuns row g) = trimTrail (List.replicate g 0 ++ row) := by
  suffices H : ∀ n (row : List Nat) (g : Nat), row.length ≤ n →
      runsPix (rowRuns row g) = trimTrail (List.replicate g 0 ++ row) from
    H row.length row g le_rfl
  intro n
  induction n with
  | zero =>
    intro row g hr
    have hrow : row = [] := List.length_eq_zero.mp (by omega)
    subst hrow
    rw [rowRuns]
    simp [runsPix, trimTrail_replicate]
  | succ n ih =>
    intro row g hr
    match row with
    | [] =>
      rw [rowRuns]
      simp [runsPix, trimTrail_replicate]
    | p :: rest =>
      have hrest : rest.length ≤ n := by
        simp [List.length_cons] at hr
        omega
      rw [rowRuns]
      by_cases hp : p = 0
      · rw [if_pos hp]
        subst hp
        rw [ih rest (g + 1) hrest]
        congr 1
        rw [List.replicate_succ' g 0]
        simp
      · rw [if_neg hp]
        rw [runsPix_append, runsPix_append, runSplit_pix]
        have hd : (rest.dropWhile (fun q => q ≠ 0)).length ≤ n :=
          le_trans (List.dropWhile_sublist _).length_le hrest
        rw [ih (rest.dropWhile (fun q => q ≠ 0)) 0 hd]
        have ht : ∀ q ∈ rest.takeWhile (fun q => q ≠ 0), q ≠ 0 := fun q hq => by
          simpa using List.mem_takeWhile_imp hq
        have hgrp := trimTrail_group g p hp (rest.takeWhile (fun q => q ≠ 0))
          (rest.dropWhile (fun q => q ≠ 0)) ht
        rw [List.replicate_zero, List.nil_append]
        have hsplit : rest.takeWhile (fun q => q ≠ 0) ++
            rest.dropWhile (fun q => q ≠ 0) = rest :=
          List.takeWhile_append_dropWhile (fun q => decide (q ≠ 0)) rest
        rw [← List.append_assoc (runsPix (gapSplit g).1), gapSplit_pix, ← hgrp,
          List.append_assoc, List.cons_append, hsplit]

/-- Every run of a row keeps its gap within 7 bits (ready for the gap byte,
possibly with the end-of-row high bit added). -/
theorem rowRuns_gaps (row : List Nat) (g : Nat) :
    ∀ r ∈ rowRuns row g, r.gap ≤ 127 := by
  suffices H : ∀ n (row : List Nat) (g : Nat), row.length ≤ n →
      ∀ r ∈ rowRuns row g, r.gap ≤ 127 from H row.length row g le_rfl
  intro n
  induction n with
  | zero =>
    intro row g hr
    have hrow : row = [] := List.length_eq_zero.mp (by omega)
    subst hrow
    rw [rowRuns]
    intro r hr2
    cases hr2
  | succ n ih =>
    intro row g hr
    match row with
    | [] =>
      rw [rowRuns]
      intro r hr2
      cases hr2
    | p :: rest =>
      have hrest : rest.length ≤ n := by
        simp [List.length_cons] at hr
        omega
      rw [rowRuns]
      by_cases hp : p = 0
      · rw [if_pos hp]
        exact ih rest (g + 1) hrest
      · rw [if_neg hp]
        intro r hr2
        rcases List.mem_append.mp hr2 with h1 | h2
        · rcases List.mem_append.mp h1 with h3 | h4
          · exact le_of_eq (gapSplit_runs g r h3).1
          · exact runSplit_gaps (gapSplit g).2 _ (gapSplit_snd_le g) r h4
        · exact ih (rest.dropWhile (fun q => q ≠ 0)) 0
            (le_trans (List.dropWhile_sublist _).length_le hrest) r h2

/-- Every run of a row carries at most 255 pixels (ready for the count
byte). -/
theorem rowRuns_counts (row : List Nat) (g : Nat) :
    ∀ r ∈ rowRuns row g, r.pix.length ≤ 255 := by
  suffices H : ∀ n (row : List Nat) (g : Nat), row.length ≤ n →
      ∀ r ∈ rowRuns row g, r.pix.length ≤ 255 from H row.length row g le_rfl
  intro n
  induction n with
  | zero =>
    intro row g hr
    have hrow : row = [] := List.length_eq_zero.mp (by omega)
    subst hrow
    rw [rowRuns]
    intro r hr2
    cases hr2
  | succ n ih =>
    intro row g hr
    match row with
    | [] =>
      rw [rowRuns]
      intro r hr2
      cases hr2
    | p :: rest =>
      have hrest : rest.length ≤ n := by
        simp [List.length_cons] at hr
        omega
      rw [rowRuns]
      by_cases hp : p = 0
      · rw [if_pos hp]
        exact ih rest (g + 1) hrest
      · rw [if_neg hp]
        intro r hr2
        rcases List.mem_append.mp hr2 with h1 | h2
        · rcases List.mem_append.mp h1 with h3 | h4
          · rw [(gapSplit_runs g r h3).2]
            simp
          · exact runSplit_counts (gapSplit g).2 _ r h4
        · exact ih (rest.dropWhile (fun q => q ≠ 0)) 0
            (le_trans (List.dropWhile_sublist _).length_le hrest) r h2

/-- Every pixel of a row's runs is a pixel of the row. -/
theorem rowRuns_mem (row : List Nat) (g : Nat) :
    ∀ r ∈ rowRuns row g, ∀ p ∈ r.pix, p ∈ row := by
  suffices H : ∀ n (row : List Nat) (g : Nat), row.length ≤ n →
      ∀ r ∈ rowRuns row g, ∀ p ∈ r.pix, p ∈ row from H row.length row g le_rfl
  intro n
  induction n with
  | zero =>
    intro row g hr
    have hrow : row = [] := List.length_eq_zero.mp (by omega)
    subst hrow
    rw [rowRuns]
    intro r hr2
    cases hr2
  | succ n ih =>
    intro row g hr
    match row with
    | [] =>
      rw [rowRuns]
      intro r hr2
      cases hr2
    | p :: rest =>
      have hrest : rest.length ≤ n := by
        simp [List.length_cons] at hr
        omega
      rw [rowRuns]
      by_cases hp : p = 0
      · rw [if_pos hp]
        intro r hr2 q hq
        exact List.mem_cons_of_mem p (ih rest (g + 1) hrest r hr2 q hq)
      · rw [if_neg hp]
        intro r hr2 q hq
        rcases List.mem_append.mp hr2 with h1 | h2
        · rcases List.mem_append.mp h1 with h3 | h4
          · rw [(gapSplit_runs g r h3).2] at hq
            cases hq
          · have := runSplit_mem (gapSplit g).2 _ r h4 q hq
            rcases List.mem_cons.mp this with rfl | h5
            · exact List.mem_cons_self q rest
            · exact List.mem_cons_of_mem p
                ((List.takeWhile_sublist _).subset h5)
        · exact List.mem_cons_of_mem p
            ((List.dropWhile_sublist _).subset
              (ih (rest.dropWhile (fun q => q ≠ 0)) 0
                (le_trans (List.dropWhile_sublist _).length_le hrest) r h2 q hq))

/-- A row encodes to no runs exactly when it is fully transparent. -/
theorem rowRuns_nil_iff (row : List Nat) (g : Nat) :
    rowRuns row g = [] ↔ ∀ p ∈ row, p = 0 := by
  suffices H : ∀ n (row : List Nat) (g : Nat), row.length ≤ n →
      (rowRuns row g = [] ↔ ∀ p ∈ row, p = 0) from H row.length row g le_rfl
  intro n
  induction n with
  | zero =>
    intro row g hr
    have hrow : row = [] := List.length_eq_zero.mp (by omega)
    subst hrow
    rw [rowRuns]
    simp
  | succ n ih =>
    intro row g hr
    match row with
    | [] =>
      rw [rowRuns]
      simp
    | p :: rest =>
      have hrest : rest.length ≤ n := by
        simp [List.length_cons] at hr
        omega
      rw [rowRuns]
      by_cases hp : p = 0
      · rw [if_pos hp]
        subst hp
        rw [ih rest (g + 1) hrest]
        simp
      · rw [if_neg hp]
        constructor
        · intro hnil
          exfalso
          rcases List.append_eq_nil.mp hnil with ⟨h1, h2⟩
          rcases List.append_eq_nil.mp h1 with ⟨h3, h4⟩
          exact runSplit_ne_nil (gapSplit g).2 _ h4
        · intro hall
          exact absurd (hall p (List.mem_cons_self p rest)) hp

/-- Decoding the serialized runs of a row (all gaps within 7 bits) yields
exactly the pixels the runs stand for. -/
theorem decodeRow_rowBytes (rs : List Run) (hg : ∀ r ∈ rs, r.gap ≤ 127) :
    decodeRow (rowBytes rs) = runsPix rs := by
  induction rs with
  | nil =>
    simp [rowBytes, decodeRow, runsPix]
  | cons r rs ih =>
    have hgr : r.gap ≤ 127 := hg r (List.mem_cons_self r rs)
    cases rs with
    | nil =>
      show decodeRow (runBytes true r) = runsPix [r]
      rw [runBytes, Bool.cond_true, decodeRow]
      have h1 : (r.gap + 128) % 128 = r.gap := by omega
      rw [if_pos (by omega : 128 ≤ r.gap + 128), h1, List.take_length]
      simp [runsPix]
    | cons r2 rs2 =>
      show decodeRow (runBytes false r ++ rowBytes (r2 :: rs2)) = _
      rw [runBytes, Bool.cond_false]
      simp only [List.cons_append]
      rw [decodeRow]
      have h1 : r.gap % 128 = r.gap := by omega
      rw [if_neg (by omega : ¬ 128 ≤ r.gap), h1, List.take_left, List.drop_left]
      rw [ih (fun x hx => hg x (List.mem_cons_of_mem r hx))]
      simp [runsPix]

/-- Round trip for one row: decoding the RLE bytes and padding with
transparency to the row width reproduces the row exactly. -/
theorem decode_encodeRow (row : List Nat) :
    decodeRowFull row.length (encodeRow row) = row := by
  have hd : decodeRow (encodeRow row) = trimTrail row := by
    rw [encodeRow, decodeRow_rowBytes _ (rowRuns_gaps row 0), rowRuns_pix]
    simp
  rw [decodeRowFull, hd]
  exact trimTrail_pad row

/-- Every byte of a row's RLE data fits in 8 bits. -/
theorem encodeRow_bytes (row : List Nat) (h : ∀ p ∈ row, p < 256) :
    ∀ b ∈ encodeRow row, b < 256 := by
  rw [encodeRow]
  have H : ∀ rs : List Run, (∀ r ∈ rs, r.gap ≤ 127) →
      (∀ r ∈ rs, r.pix.length ≤ 255) → (∀ r ∈ rs, ∀ p ∈ r.pix, p < 256) →
      ∀ b ∈ rowBytes rs, b < 256 := by
    intro rs
    induction rs with
    | nil =>
      intro _ _ _ b hb
      rw [rowBytes] at hb
      cases hb
    | cons r rs ih =>
      intro hg hc hp b hb
      have hgr : r.gap ≤ 127 := hg r (List.mem_cons_self r rs)
      have hcr : r.pix.length ≤ 255 := hc r (List.mem_cons_self r rs)
      cases rs with
      | nil =>
        simp only [rowBytes, runBytes, Bool.cond_true] at hb
        rcases List.mem_cons.mp hb with rfl | hb2
        · omega
        · rcases List.mem_cons.mp hb2 with rfl | hb3
          · omega
          · exact hp r (List.mem_cons_self r []) b hb3
      | cons r2 rs2 =>
        simp only [rowBytes, runBytes, Bool.cond_false, List.cons_append,
          List.mem_cons, List.mem_append] at hb
        rcases hb with rfl | hb2
        · omega
        · rcases hb2 with rfl | hb3
          · omega
          · rcases hb3 with hb4 | hb5
            · exact hp r (List.mem_cons_self r (r2 :: rs2)) b hb4
            · refine ih (fun x hx => hg x (List.mem_cons_of_mem r hx))
                (fun x hx => hc x (List.mem_cons_of_mem r hx))
                (fun x hx => hp x (List.mem_cons_of_mem r hx)) b ?_
              simpa [rowBytes] using hb5
  exact H (rowRuns row 0) (rowRuns_gaps row 0) (rowRuns_counts row 0)
    (fun r hr p hp2 => h p (rowRuns_mem row 0 r hr p hp2))

/-- A row's RLE data is empty exactly when the row is fully transparent. -/
theorem rowSize_zero_iff (row : List Nat) :
    rowSize row = 0 ↔ ∀ p ∈ row, p = 0 := by
  rw [rowSize, encodeRow]
  constructor
  · intro h
    have hnil : rowRuns row 0 = [] := by
      cases hrs : rowRuns row 0 with
      | nil => rfl
      | cons r rs =>
        rw [hrs] at h
        cases rs with
        | nil => simp [rowBytes, runBytes] at h
        | cons r2 rs2 => simp [rowBytes, runBytes] at h
    exact (rowRuns_nil_iff row 0).mp hnil
  · intro h
    rw [(rowRuns_nil_iff row 0).mpr h]
    rfl

/-- The jump table has one entry per row. -/
theorem jumpValues_length (sizes : List Nat) (offset : Nat) :
    (jumpValues sizes offset).length = sizes.length := by
  induction sizes generalizing offset with
  | nil => rfl
  | cons s rest ih => simp [jumpValues, ih]

/-- As long as the offsets stay within 32 bits, a jump entry is zero exactly
for a zero-size row. -/
theorem jumpValues_zero_iff (sizes : List Nat) (offset y : Nat)
    (hy : y < sizes.length) (h1 : 0 < offset)
    (h2 : offset + sizes.sum < 2 ^ 32) :
    ((jumpValues sizes offset).getD y 1 = 0 ↔ sizes.getD y 1 = 0) := by
  induction sizes generalizing offset y with
  | nil => cases hy
  | cons s rest ih =>
    rw [List.sum_cons] at h2
    cases y with
    | zero =>
      by_cases hs : s = 0
      · simp [jumpValues, hs]
      · simp [jumpValues, hs]
        omega
    | succ y2 =>
      simp only [jumpValues, List.getD_cons_succ]
      have hmod : (offset + s) % 2 ^ 32 = offset + s :=
        Nat.mod_eq_of_lt (by omega)
      rw [hmod]
      exact ih (offset + s) y2 (by simpa using hy) (by omega) (by omega)

/-- `Image::Encode` returns no data exactly when the whole region is
transparent (image.cpp lines 427-431 return `nullptr` with size 0). -/
theorem Image_Encode_eq_nil_iff (region : List (List Nat)) :
    Image.Encode region = [] ↔ ∀ row ∈ region, ∀ p ∈ row, p = 0 := by
  rw [Image.Encode]
  by_cases h : (region.map rowSize).sum = 0
  · rw [if_pos h]
    simp only [true_iff]
    intro row hrow
    refine (rowSize_zero_iff row).mp ?_
    have hle : rowSize row ≤ (region.map rowSize).sum :=
      List.single_le_sum (fun x _ => Nat.zero_le x) _
        (List.mem_map_of_mem rowSize hrow)
    omega
  · rw [if_neg h]
    have hdata : ((region.map encodeRow).flatten).length =
        (region.map rowSize).sum := by
      rw [List.length_flatten, List.map_map]
      rfl
    constructor
    · intro hnil
      exfalso
      apply h
      have hlen := congrArg List.length hnil
      rw [List.length_append, hdata, List.length_nil] at hlen
      omega
    · intro hall
      exfalso
      apply h
      refine List.sum_eq_zero ?_
      intro s hs
      obtain ⟨row, hrow, rfl⟩ := List.mem_map.mp hs
      exact (rowSize_zero_iff row).mpr (hall row hrow)

/-- C3: For every in-bounds sprite region whose palette indices fit a byte,
RLE-encoding with `Image::Encode` and logically decoding reproduces the
region: (1) decoding each row's runs (gap byte skips transparent pixels,
count byte emits opaque indices, high bit ends the row) and padding with
transparency to the row width gives back that row's palette indices exactly,
with index 0 as transparent; (2) every emitted byte fits in 8 bits because
gaps longer than 127 are split into (127,0) runs and opaque runs longer than
255 pixels are split; (3) the encoder emits no data exactly for a fully
transparent region; (4) every run indeed has gap at most 127 and count at
most 255; (5) while offsets stay inside 32 bits, a row's 4-byte jump-table
entry is zero exactly when that row is fully transparent. -/
theorem Image_Encode_roundtrip (region : List (List Nat))
    (hpix : ∀ row ∈ region, ∀ p ∈ row, p < 256) :
    (∀ row ∈ region, decodeRowFull row.length (encodeRow row) = row) ∧
    (∀ row ∈ region, ∀ b ∈ encodeRow row, b < 256) ∧
    (Image.Encode region = [] ↔ ∀ row ∈ region, ∀ p ∈ row, p = 0) ∧
    (∀ row ∈ region, ∀ r ∈ rowRuns row 0, r.gap ≤ 127 ∧ r.pix.length ≤ 255) ∧
    (4 * region.length + (region.map rowSize).sum < 2 ^ 32 →
      ∀ y, y < region.length →
        ((jumpValues (region.map rowSize)
            ((4 * region.length) % 2 ^ 32)).getD y 1 = 0 ↔
          ∀ p ∈ region.getD y [], p = 0)) := by
  refine ⟨fun row _ => decode_encodeRow row,
    fun row hrow => encodeRow_bytes row (hpix row hrow),
    Image_Encode_eq_nil_iff region,
    fun row _ r hr => ⟨rowRuns_gaps row 0 r hr, rowRuns_counts row 0 r hr⟩,
    ?_⟩
  intro hfit y hy
  have hmod : (4 * region.length) % 2 ^ 32 = 4 * region.length :=
    Nat.mod_eq_of_lt (by omega)
  have hget : (region.map rowSize).getD y 1 = rowSize (region.getD y []) := by
    rw [List.getD_eq_getElem?_getD, List.getD_eq_getElem?_getD,
      List.getElem?_map, List.getElem?_eq_getElem hy]
    rfl
  rw [hmod,
    jumpValues_zero_iff (region.map rowSize) (4 * region.length) y
      (by simpa using hy) (by omega) (by omega),
    hget]
  exact rowSize_zero_iff (region.getD y [])

theorem Image_Encode_roundtrip_witness :
    (∀ row ∈ [[5, 5, 0, 0, 7], [0, 0, 0], [200]],
        ∀ p ∈ row, p < 256) ∧
    ((∀ row ∈ [[5, 5, 0, 0, 7], [0, 0, 0], [200]],
        decodeRowFull row.length (encodeRow row) = row) ∧
    (∀ row ∈ [[5, 5, 0, 0, 7], [0, 0, 0], [200]],
        ∀ b ∈ encodeRow row, b < 256) ∧
    (Image.Encode [[5, 5, 0, 0, 7], [0, 0, 0], [200]] = [] ↔
      ∀ row ∈ [[5, 5, 0, 0, 7], [0, 0, 0], [200]], ∀ p ∈ row, p = 0) ∧
    (∀ row ∈ [[5, 5, 0, 0, 7], [0, 0, 0], [200]],
        ∀ r ∈ rowRuns row 0, r.gap ≤ 127 ∧ r.pix.length ≤ 255) ∧
    (4 * ([[5, 5, 0, 0, 7], [0, 0, 0], [200]] : List (List Nat)).length +
        (([[5, 5, 0, 0, 7], [0, 0, 0], [200]] :
          List (List Nat)).map rowSize).sum < 2 ^ 32 →
      ∀ y, y < ([[5, 5, 0, 0, 7], [0, 0, 0], [200]] :
          List (List Nat)).length →
        ((jumpValues (([[5, 5, 0, 0, 7], [0, 0, 0], [200]] :
              List (List Nat)).map rowSize)
            ((4 * ([[5, 5, 0, 0, 7], [0, 0, 0], [200]] :
              List (List Nat)).length) % 2 ^ 32)).getD y 1 = 0 ↔
          ∀ p ∈ ([[5, 5, 0, 0, 7], [0, 0, 0], [200]] :
              List (List Nat)).getD y [], p = 0))) :=
  ⟨by decide, Image_Encode_roundtrip [[5, 5, 0, 0, 7], [0, 0, 0], [200]]
    (by decide)⟩
